import Mathlib

/-!
A shallow embedding of the interface-rs library (a parser, serializer and
save protocol for Debian-style `interfaces(5)` files) together with proofs
about it.

Modelling conventions:
* Rust `&str` / `String` values are modelled as `List Char` (`Str` below);
  the string functions used by the code (`trim`, `split_whitespace`,
  `starts_with`, `lines`, `join`) are reimplemented on `List Char`
  following their Rust semantics.  Rust `str::trim` and
  `split_whitespace` use the full Unicode White_Space property; Lean's
  `Char.isWhitespace` covers space, tab, CR and LF, which agrees with the
  Rust behaviour on all inputs considered here.
* The `HashMap<String, Interface>` directory is modelled as an
  association list in iteration order; `insert` of a fresh key appends at
  the end, `insert` of a present key replaces in place, matching the
  observable behaviour of the code through `get`/`values`.
* `u64` digit-run values in the natural comparator are modelled as `Nat`;
  the Rust code parses each run with `parse::<u64>().expect(..)` and so
  panics on runs of value `≥ 2^64`, where the model keeps the exact value.
  On all inputs where the code does not panic the two agree.
* Functions whose Rust termination argument is not structural are given
  an explicit fuel argument large enough to never run out, so that all
  definitions compute by kernel reduction.
-/

abbrev Str := List Char

/-- Rust `char::is_whitespace` as used by `str::trim` / `split_whitespace`. -/
def isWs (c : Char) : Bool := c.isWhitespace

/-- Rust `str::trim_end` (drop trailing whitespace). -/
def trimRight (s : Str) : Str := ((s.reverse).dropWhile isWs).reverse

/-- Rust `str::trim` (drop leading and trailing whitespace). -/
def trim (s : Str) : Str := trimRight (s.dropWhile isWs)

/-- Accumulator-based splitter behind `splitWs`; `acc` holds the current
token reversed. -/
def splitWsAux : Str → Str → List Str
  | [], acc => if acc.isEmpty then [] else [acc.reverse]
  | c :: cs, acc =>
    if isWs c then
      if acc.isEmpty then splitWsAux cs []
      else acc.reverse :: splitWsAux cs []
    else splitWsAux cs (c :: acc)

/-- Rust `str::split_whitespace` collected to a list: maximal runs of
non-whitespace characters, with no empty tokens. -/
def splitWs (s : Str) : List Str := splitWsAux s []

/-- `Vec<&str>::join(" ")`: tokens joined by single spaces. -/
def joinSp : List Str → Str
  | [] => []
  | t :: ts => t ++ (if ts.isEmpty then [] else ' ' :: joinSp ts)

/-- Split a string at every newline character (keeping empty segments). -/
def splitLines : Str → List Str
  | [] => [[]]
  | c :: cs =>
    if c = '\n' then [] :: splitLines cs
    else
      match splitLines cs with
      | [] => [[c]]
      | l :: ls => (c :: l) :: ls

/-- Strip one trailing carriage return, as Rust `str::lines` does on
newline-terminated segments. -/
def stripCR (l : Str) : Str :=
  match l.getLast? with
  | some '\r' => l.dropLast
  | _ => l

/-- Rust `str::lines`: split at `\n`, strip a trailing `\r` from each
newline-terminated segment, and drop the final empty segment produced by a
terminating newline. -/
def lines (s : Str) : List Str :=
  let ps := splitLines s
  ps.dropLast.map stripCR ++
    (match ps.getLast? with
     | some [] => []
     | some l => [l]
     | none => [])

/-- Join each line with a terminating newline (the shape produced by
repeated `writeln!`). -/
def unlinesN : List Str → Str
  | [] => []
  | l :: ls => l ++ '\n' :: unlinesN ls

/-! ## The data model (src/interface/) -/

/-- `Family` from src/interface/family.rs. -/
inductive Family where
  | inet
  | inet6
  | ipx
  | can
deriving DecidableEq, Repr

/-- `Family::from_str` (src/interface/family.rs): only the four known
family tokens parse; everything else is an error, modelled as `none`. -/
def Family.fromStr (s : Str) : Option Family :=
  if s = "inet".data then some .inet
  else if s = "inet6".data then some .inet6
  else if s = "ipx".data then some .ipx
  else if s = "can".data then some .can
  else none

/-- `Display for Family`. -/
def Family.render : Family → Str
  | .inet => "inet".data
  | .inet6 => "inet6".data
  | .ipx => "ipx".data
  | .can => "can".data

/-- `Method` from src/interface/method.rs. -/
inductive Method where
  | static
  | dhcp
  | loopback
  | manual
  | other (s : Str)
deriving DecidableEq, Repr

/-- `Method::from_str` (src/interface/method.rs): never fails, unknown
methods become `other`. -/
def Method.fromStr (s : Str) : Method :=
  if s = "static".data then .static
  else if s = "dhcp".data then .dhcp
  else if s = "loopback".data then .loopback
  else if s = "manual".data then .manual
  else .other s

/-- `Display for Method`. -/
def Method.render : Method → Str
  | .static => "static".data
  | .dhcp => "dhcp".data
  | .loopback => "loopback".data
  | .manual => "manual".data
  | .other s => s

/-- `Mapping` from src/interface/mapping.rs (`script` is a `PathBuf`,
rendered by `Display`; modelled as a string). -/
structure Mapping where
  script : Str
  maps : List Str
deriving DecidableEq, Repr

/-- `Interface` from src/interface/interface_struct.rs.  The parser and
`Interface` both hold `method : Option<Method>`; the builder used between
them copies every field (`Interface::edit` / `InterfaceBuilder::build`),
so the builder is not modelled as a separate type. -/
structure Interface where
  name : Str
  auto : Bool
  allow : List Str
  family : Option Family
  method : Option Method
  options : List (Str × Str)
  mapping : Option Mapping
deriving DecidableEq, Repr

/-- `Interface::builder(name).build()`: all fields defaulted. -/
def newIface (name : Str) : Interface :=
  ⟨name, false, [], none, none, [], none⟩

/-! ## The directory (HashMap<String, Interface> in iteration order).
The model fixes one concrete iteration order (insertion order); the
iteration order of the real `std::collections::HashMap` is arbitrary, so
any theorem about rendering whose truth could depend on the order
quantifies over all permutations of the directory. -/

abbrev Dir := List (Str × Interface)

/-- `HashMap::get`. -/
def getA (k : Str) : Dir → Option Interface
  | [] => none
  | (k', v) :: rest => if k' = k then some v else getA k rest

/-- `HashMap::insert`: replace in place if present, else append. -/
def insertA (k : Str) (v : Interface) : Dir → Dir
  | [] => [(k, v)]
  | (k', v') :: rest =>
    if k' = k then (k, v) :: rest else (k', v') :: insertA k v rest

/-- `HashMap::remove`. -/
def removeA (k : Str) : Dir → Dir
  | [] => []
  | (k', v) :: rest => if k' = k then rest else (k', v) :: removeA k rest

/-- `HashMap::get_mut` followed by a mutation. -/
def updateA (k : Str) (f : Interface → Interface) : Dir → Dir
  | [] => []
  | (k', v) :: rest =>
    if k' = k then (k', f v) :: rest else (k', v) :: updateA k f rest

/-! ## The parser (src/parser.rs) -/

/-- `ParserError` from src/error.rs.  The source message for a missing
interface name quotes the word iface in single quotation marks; the
quotation marks are omitted from the modelled message text. -/
structure ParserError where
  message : Str
  line : Option Nat
deriving DecidableEq, Repr

def missingNameMsg : Str := "Missing interface name in iface stanza".data

/-- The parser's loop state: the growing directory, the currently open
`iface` stanza, and the collected comment and source lines. -/
structure PState where
  interfaces : Dir
  current : Option Interface
  comments : List Str
  sources : List Str
deriving DecidableEq, Repr

def initState : PState := ⟨[], none, [], []⟩

/-- "Finish the previous interface if necessary" (parser.rs lines 63-76):
insert the open stanza's interface into the directory. -/
def flushDir (st : PState) : Dir :=
  match st.current with
  | some i => insertA i.name i st.interfaces
  | none => st.interfaces

def flushState (st : PState) : PState :=
  ⟨flushDir st, none, st.comments, st.sources⟩

/-- Keywords that close an open stanza: `auto`, `mapping`, `iface`, and
any `allow-*`. -/
def isFlushKeyword (t : Str) : Bool :=
  t = "auto".data ∨ t = "mapping".data ∨ t = "iface".data ∨
    "allow-".data.isPrefixOf t

/-- One name of an `auto` line (parser.rs lines 79-92). -/
def autoOne (dir : Dir) (name : Str) : Dir :=
  match getA name dir with
  | some _ => updateA name (fun i => { i with auto := true }) dir
  | none => dir ++ [(name, { newIface name with auto := true })]

/-- One name of an `allow-*` line (parser.rs lines 93-106). -/
def allowOne (allowType : Str) (dir : Dir) (name : Str) : Dir :=
  match getA name dir with
  | some _ => updateA name (fun i => { i with allow := i.allow ++ [allowType] }) dir
  | none => dir ++ [(name, { newIface name with allow := [allowType] })]

/-- Family of an `iface` line: `tokens.get(2)` parsed, errors discarded
(`.ok()`).  `args` are the tokens after the interface name. -/
def famOf (args : List Str) : Option Family :=
  match args.head? with
  | some s => Family.fromStr s
  | none => none

/-- Method of an `iface` line (parser.rs lines 134-140): with four tokens
and a recognized family the fourth token, with three tokens and no
recognized family the third token, otherwise absent. -/
def methOf (args : List Str) : Option Method :=
  match args with
  | [m] => if (famOf args).isNone then some (Method.fromStr m) else none
  | [_, m] => if (famOf args).isSome then some (Method.fromStr m) else none
  | _ => none

/-- Apply an `iface` line's family/method tokens to the (existing or
fresh) builder: each field is overwritten only when the line supplies a
value for it. -/
def applyIfaceArgs (base : Interface) (args : List Str) : Interface :=
  let base1 :=
    match famOf args with
    | some f => { base with family := some f }
    | none => base
  match methOf args with
  | some m => { base1 with method := some m }
  | none => base1

/-- The directive dispatch of `Parser::parse`'s loop (the two `match
tokens[0]` expressions of parser.rs lines 63-169), applied to the first
token and the remaining tokens of a content line. -/
def stepTokens (lineNumber : Nat) (t0 : Str) (rest : List Str)
    (st : PState) : Except ParserError PState :=
  let st1 := if isFlushKeyword t0 then flushState st else st
  if t0 = "auto".data then
    .ok { st1 with interfaces := rest.foldl autoOne st1.interfaces }
  else if "allow-".data.isPrefixOf t0 then
    let allowType := t0.drop 6
    .ok { st1 with interfaces := rest.foldl (allowOne allowType) st1.interfaces }
  else if t0 = "iface".data then
    match rest with
    | [] => .error ⟨missingNameMsg, some (lineNumber + 1)⟩
    | name :: args =>
      let base :=
        match getA name st1.interfaces with
        | some e => e
        | none => newIface name
      .ok { st1 with
            interfaces := removeA name st1.interfaces,
            current := some (applyIfaceArgs base args) }
  else if t0 = "mapping".data then
    .ok st1
  else
    match st1.current with
    | some i =>
      .ok { st1 with
            current := some { i with options := i.options ++ [(t0, joinSp rest)] } }
    | none => .ok st1

/-- One iteration of `Parser::parse`'s loop over `(line_number, line)`. -/
def step (lineNumber : Nat) (rawLine : Str) (st : PState) :
    Except ParserError PState :=
  let line := trim rawLine
  if "#".data.isPrefixOf line then
    if st.interfaces.isEmpty && st.current.isNone then
      .ok { st with comments := st.comments ++ [line] }
    else .ok st
  else if "source".data.isPrefixOf line then
    .ok { st with sources := st.sources ++ [line] }
  else if line.isEmpty then .ok st
  else
    match splitWs line with
    | [] => .ok st
    | t0 :: rest => stepTokens lineNumber t0 rest st

/-- The parse loop over the enumerated lines. -/
def run : List (Nat × Str) → PState → Except ParserError PState
  | [], st => .ok st
  | (n, l) :: rest, st =>
    match step n l st with
    | .ok st' => run rest st'
    | .error e => .error e

/-- `content.lines().enumerate()`. -/
def withNums (start : Nat) : List Str → List (Nat × Str)
  | [] => []
  | l :: ls => (start, l) :: withNums (start + 1) ls

/-- The successful result of `Parser::parse`: the tuple
`(interfaces, comments, sources)`. -/
structure ParseOk where
  interfaces : Dir
  comments : List Str
  sources : List Str
deriving DecidableEq, Repr

/-- `Parser::parse` (src/parser.rs lines 29-178). -/
def Parser.parse (content : Str) : Except ParserError ParseOk :=
  match run (withNums 0 (lines content)) initState with
  | .error e => .error e
  | .ok st => .ok ⟨flushDir st, st.comments, st.sources⟩

/-! ## The natural comparator (src/helper/sort.rs) -/

/-- Numeric value of an ASCII digit character. -/
def digitVal (c : Char) : Nat := c.toNat - 48

/-- Value of a run of ASCII digits (the `u64` parse in the source,
modelled exactly as a `Nat`). -/
def digitsToNat (ds : Str) : Nat :=
  ds.foldl (fun n c => n * 10 + digitVal c) 0

/-- The loop of `natural` with explicit fuel; the recursion consumes at
least one character of one side per step, so fuel `a.length + b.length`
always suffices. -/
def naturalGo : Nat → Str → Str → Ordering
  | 0, _, _ => .eq
  | _ + 1, [], [] => .eq
  | _ + 1, _ :: _, [] => .gt
  | _ + 1, [], _ :: _ => .lt
  | fuel + 1, a :: as, b :: bs =>
    if a.isDigit && b.isDigit then
      let ad := (a :: as).takeWhile Char.isDigit
      let ar := (a :: as).dropWhile Char.isDigit
      let bd := (b :: bs).takeWhile Char.isDigit
      let br := (b :: bs).dropWhile Char.isDigit
      match compare (digitsToNat ad) (digitsToNat bd) with
      | .eq => naturalGo fuel ar br
      | o => o
    else
      match compare a.toNat b.toNat with
      | .eq => naturalGo fuel as bs
      | o => o

/-- `natural` (src/helper/sort.rs lines 13-67): compare maximal ASCII
digit runs as numbers, other characters by code point. -/
def natural (a b : Str) : Ordering :=
  naturalGo (a.length + b.length) a b

/-! ## Stable sorting (Rust `sort_by` is a stable sort; any stable sort
has the same observable behaviour, here insertion sort) -/

/-- Insert `x` after every element strictly smaller under `cmp`, before
the first element that is ≥ — this preserves the relative order of
elements that compare equal. -/
def insSorted (cmp : α → α → Ordering) (x : α) : List α → List α
  | [] => [x]
  | y :: ys => if cmp x y = .gt then y :: insSorted cmp x ys else x :: y :: ys

/-- Stable sort by a comparator. -/
def stableSort (cmp : α → α → Ordering) : List α → List α
  | [] => []
  | x :: xs => insSorted cmp x (stableSort cmp xs)

/-- Code-point comparison of two characters (Rust `char`/byte order). -/
def charCmp (c d : Char) : Ordering := compare c.toNat d.toNat

/-- Rust `String::cmp`: lexicographic byte order, which on UTF-8 agrees
with lexicographic code-point order. -/
def strCmp : Str → Str → Ordering
  | [], [] => .eq
  | [], _ :: _ => .lt
  | _ :: _, [] => .gt
  | a :: as, b :: bs =>
    match charCmp a b with
    | .eq => strCmp as bs
    | o => o

/-- Comparator used on options: `a.0.cmp(&b.0)` (by key only). -/
def optCmp (a b : Str × Str) : Ordering := strCmp a.1 b.1

/-- Comparator used on interfaces: `natural(&a.name, &b.name)`. -/
def ifaceCmp (a b : Interface) : Ordering := natural a.name b.name

/-! ## The serializer (Display impls) -/

/-- The `iface <name> [<family>] [<method>]` header line. -/
def ifaceHeader (i : Interface) : Str :=
  joinSp (["iface".data, i.name] ++
    (match i.family with | some f => [f.render] | none => []) ++
    (match i.method with | some m => [m.render] | none => []))

/-- The lines of `Display for Interface`
(src/interface/interface_struct.rs lines 99-130): optional `auto` line,
`allow-*` lines, optional mapping block, the `iface` header, then the
options sorted by key, indented four spaces. -/
def stanzaLines (i : Interface) : List Str :=
  (if i.auto then [joinSp ["auto".data, i.name]] else []) ++
  i.allow.map (fun t => joinSp ["allow-".data ++ t, i.name]) ++
  (match i.mapping with
   | some m =>
     [joinSp ["mapping".data, i.name],
      "    ".data ++ joinSp ["script".data, m.script]] ++
     m.maps.map (fun mp => "    ".data ++ joinSp ["map".data, mp])
   | none => []) ++
  [ifaceHeader i] ++
  (stableSort optCmp i.options).map (fun o => "    ".data ++ o.1 ++ ' ' :: o.2)

/-- `Display for Interface` as text. -/
def Interface.render (i : Interface) : Str := unlinesN (stanzaLines i)

/-! ## The document model (src/network_interfaces.rs) -/

/-- `NetworkInterfaces`: the directory in iteration order, the file path,
the recorded modification time (`SystemTime` modelled as `Nat`), and the
captured comment/source lines. -/
structure NetworkInterfaces where
  interfaces : Dir
  path : Option Str
  lastModified : Option Nat
  comments : List Str
  sources : List Str
deriving DecidableEq, Repr

/-- The interfaces of the document sorted for display. -/
def sortedIfaces (ni : NetworkInterfaces) : List Interface :=
  stableSort ifaceCmp (ni.interfaces.map Prod.snd)

/-- All physical lines emitted by `Display for NetworkInterfaces`
(src/network_interfaces.rs lines 260-283): comments, sources, then each
interface preceded by one blank line, in natural name order. -/
def allLines (ni : NetworkInterfaces) : List Str :=
  ni.comments ++ ni.sources ++
    ((sortedIfaces ni).map (fun i => [] :: stanzaLines i)).flatten

/-- `Display for NetworkInterfaces` as text (every line
newline-terminated). -/
def NetworkInterfaces.render (ni : NetworkInterfaces) : Str :=
  unlinesN (allLines ni)

/-- Build the in-memory document from a parse result, as
`NetworkInterfaces::load` does. -/
def NetworkInterfaces.ofParse (r : ParseOk) (path : Option Str)
    (lastModified : Option Nat) : NetworkInterfaces :=
  ⟨r.interfaces, path, lastModified, r.comments, r.sources⟩

/-! ## The save protocol (src/network_interfaces.rs lines 202-234) -/

/-- `NetworkInterfacesError` from src/error.rs (the variants reachable
from `save`). -/
inductive NIError where
  | parser (e : ParserError)
  | fileModified
  | other (msg : Str)
deriving DecidableEq, Repr

/-- The file system state seen by `save`: the file's bytes and its
modification time.  Reading the metadata and writing the file are the
platform primitives the code calls. -/
structure Disk where
  content : Str
  mtime : Nat
deriving DecidableEq, Repr

def noPathMsg : Str := "No file path specified".data

/-- `NetworkInterfaces::save`: fail without a path; read the on-disk
modification time and fail with `FileModified` when it is strictly newer
than the recorded one, leaving the disk untouched; otherwise render and
write the whole file and record the current time (`now`). -/
def NetworkInterfaces.save (ni : NetworkInterfaces) (disk : Disk)
    (now : Nat) : Except NIError NetworkInterfaces × Disk :=
  match ni.path with
  | none => (.error (.other noPathMsg), disk)
  | some _ =>
    match ni.lastModified with
    | some lm =>
      if disk.mtime > lm then (.error .fileModified, disk)
      else (.ok { ni with lastModified := some now }, ⟨ni.render, now⟩)
    | none => (.ok { ni with lastModified := some now }, ⟨ni.render, now⟩)

/-! ## Well-formedness predicates used to state the round-trip claims -/

/-- A single whitespace-free nonempty token. -/
def IsToken (t : Str) : Prop := t ≠ [] ∧ ∀ c ∈ t, isWs c = false

instance (t : Str) : Decidable (IsToken t) := by
  unfold IsToken; infer_instance

/-- A string that is exactly its own whitespace-split tokens rejoined by
single spaces (no leading/trailing whitespace, single spaces between
tokens). -/
def NormalValue (v : Str) : Prop := joinSp (splitWs v) = v

instance (v : Str) : Decidable (NormalValue v) := by
  unfold NormalValue; infer_instance

/-- An option pair that survives the parse round trip: the key is a token
that the parser does not read as a directive, and the value is in normal
form. -/
def WFOpt (o : Str × Str) : Prop :=
  IsToken o.1 ∧
  o.1 ≠ "auto".data ∧ o.1 ≠ "iface".data ∧ o.1 ≠ "mapping".data ∧
  "allow-".data.isPrefixOf o.1 = false ∧
  "source".data.isPrefixOf o.1 = false ∧
  "#".data.isPrefixOf o.1 = false ∧
  NormalValue o.2

instance (o : Str × Str) : Decidable (WFOpt o) := by
  unfold WFOpt; infer_instance

/-- The method token (if any) round-trips through `Method::from_str`. -/
def MethodRT : Option Method → Prop
  | some m => IsToken m.render ∧ Method.fromStr m.render = m
  | none => True

instance : (om : Option Method) → Decidable (MethodRT om)
  | some m => by unfold MethodRT; infer_instance
  | none => by unfold MethodRT; infer_instance

/-- When no family is present, the method token must not itself parse as
a family (otherwise reparsing would read it as one). -/
def FamMethRT : Option Family → Option Method → Prop
  | none, some m => Family.fromStr m.render = none
  | _, _ => True

instance : (og : Option Family) → (om : Option Method) → Decidable (FamMethRT og om)
  | none, some m => by unfold FamMethRT; infer_instance
  | none, none => by unfold FamMethRT; infer_instance
  | some _, some _ => by unfold FamMethRT; infer_instance
  | some _, none => by unfold FamMethRT; infer_instance

/-- An interface whose rendered stanza parses back to itself: tokens are
well formed, the method token round-trips (and is not mistaken for a
family when no family is present), there is no mapping block (the parser
discards mapping bodies), and every option is well formed. -/
def WFIface (i : Interface) : Prop :=
  IsToken i.name ∧
  (∀ t ∈ i.allow, ∀ c ∈ t, isWs c = false) ∧
  MethodRT i.method ∧
  FamMethRT i.family i.method ∧
  (∀ o ∈ i.options, WFOpt o) ∧
  i.mapping = none

instance (i : Interface) : Decidable (WFIface i) := by
  unfold WFIface; infer_instance

/-- A document whose rendering parses back to an equal document: the
directory is keyed by the interface names without duplicates, every
interface is well formed, and comments/sources are single trimmed lines
with the right leading keyword. -/
def WFDoc (ni : NetworkInterfaces) : Prop :=
  (∀ e ∈ ni.interfaces, e.1 = e.2.name ∧ WFIface e.2) ∧
  (ni.interfaces.map Prod.fst).Nodup ∧
  (∀ c ∈ ni.comments, "#".data.isPrefixOf c = true ∧ trim c = c ∧ '\n' ∉ c) ∧
  (∀ s ∈ ni.sources,
    "source".data.isPrefixOf s = true ∧ trim s = s ∧ '\n' ∉ s)

instance (ni : NetworkInterfaces) : Decidable (WFDoc ni) := by
  unfold WFDoc; infer_instance

/-- A canonical text: the rendering of some well-formed document —
interfaces in natural order, options sorted by key and indented, one
blank line between stanzas. -/
def Canonical (text : Str) : Prop :=
  ∃ ni : NetworkInterfaces, WFDoc ni ∧ ni.render = text

/-! ## Comparator infrastructure used in the proofs -/

/-- Lexicographic extension of a comparator to lists. -/
def listCmp (cmp : α → α → Ordering) : List α → List α → Ordering
  | [], [] => .eq
  | [], _ :: _ => .lt
  | _ :: _, [] => .gt
  | a :: as, b :: bs =>
    match cmp a b with
    | .eq => listCmp cmp as bs
    | o => o

/-- Lexicographic comparison of pairs of naturals. -/
def pairCmp (p q : Nat × Nat) : Ordering :=
  match compare p.1 q.1 with
  | .eq => compare p.2 q.2
  | o => o

/-- Canonical key of a string under the natural comparator: digit runs
become `(48, value)` (48 is the code of the digit zero, below every
non-digit character that can follow a digit run), other characters become
`(code point, 0)`.  `natural` coincides with lexicographic comparison of
these keys. -/
def canonGo : Nat → Str → List (Nat × Nat)
  | 0, _ => []
  | _ + 1, [] => []
  | fuel + 1, c :: cs =>
    if c.isDigit then
      (48, digitsToNat ((c :: cs).takeWhile Char.isDigit)) ::
        canonGo fuel ((c :: cs).dropWhile Char.isDigit)
    else (c.toNat, 0) :: canonGo fuel cs

def canon (s : Str) : List (Nat × Nat) := canonGo s.length s

/-- `cmp`-non-strict order, used for sortedness statements. -/
def cmpLe (cmp : α → α → Ordering) (x y : α) : Prop := cmp x y ≠ .gt

/-! ## Helpers for stating the claims -/

/-- Two documents with identical contents: the same name→interface
entries (up to internal order) and the same comments and sources. -/
def SameContents (a b : NetworkInterfaces) : Prop :=
  a.interfaces.Perm b.interfaces ∧ a.comments = b.comments ∧ a.sources = b.sources

/-- An option line given as its tokens: a key token that the parser does
not treat as a directive, together with the value tokens. -/
def OptTokens (p : Str × List Str) : Prop :=
  IsToken p.1 ∧ (∀ t ∈ p.2, IsToken t) ∧
  p.1 ≠ "auto".data ∧ p.1 ≠ "iface".data ∧ p.1 ≠ "mapping".data ∧
  "allow-".data.isPrefixOf p.1 = false ∧
  "source".data.isPrefixOf p.1 = false ∧
  "#".data.isPrefixOf p.1 = false

instance (p : Str × List Str) : Decidable (OptTokens p) := by
  unfold OptTokens; infer_instance

def optLine (p : Str × List Str) : Str := joinSp (p.1 :: p.2)

/-- The option pair the parser extracts from `optLine p`. -/
def parsedOpt (p : Str × List Str) : Str × Str := (p.1, joinSp p.2)

def autoLine (X : Str) : Str := joinSp ["auto".data, X]

def allowHotplugLine (X : Str) : Str := joinSp ["allow-hotplug".data, X]

def ifaceArgsLine (X : Str) (args : List Str) : Str :=
  joinSp ("iface".data :: X :: args)

/-- The six permutations of the `auto X`, `allow-hotplug X` and
`iface X <family> <method>` lines, the option lines always directly after
the `iface` line. -/
def arrangements (X fam meth : Str) (opts : List (Str × List Str)) :
    List (List Str) :=
  let a := autoLine X
  let l := allowHotplugLine X
  let ib := ifaceArgsLine X [fam, meth] :: opts.map optLine
  [[a, l] ++ ib, [a] ++ ib ++ [l], [l, a] ++ ib,
   [l] ++ ib ++ [a], ib ++ [a, l], ib ++ [l, a]]

/-- The interface record produced for `X` by any of the six
`arrangements`. -/
def expectedIface (X fam meth : Str) (opts : List (Str × List Str)) :
    Interface :=
  ⟨X, true, ["hotplug".data], famOf [fam, meth], methOf [fam, meth],
   opts.map parsedOpt, none⟩

/-- The builder base of an `iface` line: the existing entry when there is
one, otherwise a fresh default interface. -/
def ifaceBase (X : Str) (dir : Dir) : Interface :=
  match getA X dir with
  | some e => e
  | none => newIface X

/-- Keep the old optional value unless the new one is present (how an
`iface` line updates the family and method of an existing entry). -/
def updOpt (new old : Option α) : Option α :=
  match new with
  | some v => some v
  | none => old

/-- An `allow-<type> <name>` line as the serializer renders it. -/
def allowLine (t X : Str) : Str := joinSp ["allow-".data ++ t, X]

/-- An option line as the serializer renders it: four spaces, the key,
one space, the value. -/
def optRendered (o : Str × Str) : Str := "    ".data ++ o.1 ++ ' ' :: o.2

/-- The family/method argument tokens of a rendered `iface` header. -/
def headerArgs (i : Interface) : List Str :=
  (match i.family with | some f => [f.render] | none => []) ++
  (match i.method with | some m => [m.render] | none => [])

/-- The interface obtained by reparsing a rendered stanza: the same
record with the options now in display (key-sorted) order. -/
def reparseI (i : Interface) : Interface :=
  { i with options := stableSort optCmp i.options }

/-- The directory obtained by reparsing a rendered document, keyed in
display order. -/
def reparseDir (li : List Interface) : Dir :=
  li.map (fun i => (i.name, reparseI i))

/-- A directory in which distinct entries never carry natural-equal
names: ties of the display comparator occur only between an interface
and itself, so the display order is independent of the directory's
iteration order. -/
def NatDistinct (d : Dir) : Prop :=
  ∀ i ∈ d.map Prod.snd, ∀ j ∈ d.map Prod.snd,
    natural i.name j.name = .eq → i = j

instance (d : Dir) : Decidable (NatDistinct d) := by
  unfold NatDistinct
  infer_instance

/-- A well-formed document holding two distinct interfaces whose names
the natural comparator considers equal; used to show the canonical round
trip depends on the directory's iteration order. -/
def cexDocC4 : NetworkInterfaces :=
  ⟨[("swp1".data, newIface "swp1".data),
    ("swp01".data, newIface "swp01".data)], none, none, [], []⟩

/-- A concrete well-formed document used to witness the canonical round
trip. -/
def canonDocC4 : NetworkInterfaces :=
  ⟨[("eth0".data,
     ⟨"eth0".data, true, ["hotplug".data], some .inet, some .dhcp,
      [("address".data, "192.168.1.2".data)], none⟩)],
   none, none, ["# header".data], ["source /etc/extra".data]⟩

/-! # Theorems -/

/-- C3: `NetworkInterfaces::save` first reads the on-disk modification
time; when it is strictly newer than the recorded `last_modified` it
fails with `FileModified` and the disk is unchanged; otherwise it renders
the document and writes the whole file, recording the current time. -/
theorem C3_save_guard (ni : NetworkInterfaces) (disk : Disk) (now lm : Nat)
    (hpath : ni.path.isSome = true) (hlm : ni.lastModified = some lm) :
    (disk.mtime > lm → ni.save disk now = (.error .fileModified, disk)) ∧
    (¬ disk.mtime > lm →
      ni.save disk now =
        (.ok { ni with lastModified := some now }, ⟨ni.render, now⟩)) := by
  unfold NetworkInterfaces.save
  rcases hp : ni.path with _ | p
  · rw [hp] at hpath; simp at hpath
  · rw [hlm]
    constructor <;> intro h <;> simp [h]

/-- Witness for C3 at a concrete document and disk state. -/
theorem C3_save_guard_w :
    (⟨[], some "p".data, some 3, [], []⟩ : NetworkInterfaces).save ⟨"x".data, 5⟩ 10 =
      (.error .fileModified, ⟨"x".data, 5⟩) :=
  (C3_save_guard ⟨[], some "p".data, some 3, [], []⟩ ⟨"x".data, 5⟩ 10 3 rfl rfl).1
    (by decide)

/-- C2 counterexample: on `iface eth0 foo bar` the second argument `foo`
is not a recognized family, yet it is not treated as the method either —
the parsed interface has no family and no method, while
`Method::from_str` would have produced `Other "foo"` had the token been
treated as the method. -/
theorem C2_cex :
    Parser.parse "iface eth0 foo bar\n".data =
      .ok ⟨[("eth0".data, ⟨"eth0".data, false, [], none, none, [], none⟩)],
           [], []⟩ ∧
    Method.fromStr "foo".data = .other "foo".data :=
  ⟨rfl, rfl⟩

/-- C6 counterexample: a `mapping` stanza with a `script` and a `map`
body line produces no directory entry at all — the pattern name is not
created and no mapping is stored. -/
theorem C6_cex :
    Parser.parse "mapping eth0\n    script /bin/s\n    map a\n".data =
      .ok ⟨[], [], []⟩ ∧
    getA "eth0".data [] = none :=
  ⟨rfl, rfl⟩

/-- C8 counterexample: `"0"` is a strict prefix of `"00"`, yet the
natural comparator returns `Equal`, not `Less` — a strict prefix does not
always sort strictly before the longer string. -/
theorem C8_cex :
    natural "0".data "00".data = .eq ∧
    "0".data ++ "0".data = "00".data ∧ ("0".data : Str) ≠ "00".data := by
  decide

/-- C5 counterexample: two documents with identical contents (the same
two entries, in the two internal orders) render differently, because the
names `swp1` and `swp01` are distinct keys that the natural comparator
considers equal, so the stable display sort preserves the internal
order. -/
theorem C5_cex :
    SameContents
      ⟨[("swp1".data, { newIface "swp1".data with auto := true }),
        ("swp01".data, { newIface "swp01".data with auto := true })],
       none, none, [], []⟩
      ⟨[("swp01".data, { newIface "swp01".data with auto := true }),
        ("swp1".data, { newIface "swp1".data with auto := true })],
       none, none, [], []⟩ ∧
    (⟨[("swp1".data, { newIface "swp1".data with auto := true }),
       ("swp01".data, { newIface "swp01".data with auto := true })],
      none, none, [], []⟩ : NetworkInterfaces).render ≠
    (⟨[("swp01".data, { newIface "swp01".data with auto := true }),
       ("swp1".data, { newIface "swp1".data with auto := true })],
      none, none, [], []⟩ : NetworkInterfaces).render := by
  refine ⟨⟨List.Perm.swap _ _ _, rfl, rfl⟩, ?_⟩
  decide

/-! ## Lemmas about tokens, splitting, trimming and line splitting -/

theorem splitWsAux_token (t : Str) (ht : ∀ c ∈ t, isWs c = false)
    (s acc : Str) : splitWsAux (t ++ s) acc = splitWsAux s (t.reverse ++ acc) := by
  induction t generalizing acc with
  | nil => simp
  | cons c cs ih =>
    have hc : isWs c = false := ht c (by simp)
    have h1 : splitWsAux (c :: (cs ++ s)) acc = splitWsAux (cs ++ s) (c :: acc) := by
      simp [splitWsAux, hc]
    show splitWsAux (c :: (cs ++ s)) acc = _
    rw [h1, ih (fun d hd => ht d (by simp [hd])) (c :: acc)]
    simp

theorem splitWsAux_nil_acc (t : Str) (ht : ∀ c ∈ t, isWs c = false)
    (h0 : t ≠ []) : splitWsAux [] (t.reverse) = [t] := by
  have : (t.reverse).isEmpty = false := by
    cases t with
    | nil => exact absurd rfl h0
    | cons c cs => simp [List.isEmpty_iff]
  simp [splitWsAux, this]

theorem splitWs_joinSp (ts : List Str) (h : ∀ t ∈ ts, IsToken t) :
    splitWs (joinSp ts) = ts := by
  induction ts with
  | nil => rfl
  | cons t rest ih =>
    obtain ⟨ht0, htw⟩ := h t (by simp)
    cases rest with
    | nil =>
      show splitWsAux (joinSp [t]) [] = [t]
      have : joinSp [t] = t ++ [] := by simp [joinSp]
      rw [this, splitWsAux_token t htw [] [], List.append_nil]
      exact splitWsAux_nil_acc t htw ht0
    | cons u rest' =>
      have hj : joinSp (t :: u :: rest') = t ++ ' ' :: joinSp (u :: rest') := by
        simp [joinSp]
      show splitWsAux (joinSp (t :: u :: rest')) [] = t :: u :: rest'
      rw [hj, splitWsAux_token t htw _ [], List.append_nil]
      have hrev : (t.reverse).isEmpty = false := by
        cases t with
        | nil => exact absurd rfl ht0
        | cons c cs => simp [List.isEmpty_iff]
      show splitWsAux (' ' :: joinSp (u :: rest')) t.reverse = t :: u :: rest'
      simp only [splitWsAux, show isWs ' ' = true from rfl, hrev, if_false, if_true]
      rw [List.reverse_reverse]
      exact congrArg (t :: ·) (ih (fun v hv => h v (by simp [hv])))

theorem splitWsAux_tokens (s acc : Str) (hacc : ∀ c ∈ acc, isWs c = false) :
    ∀ t ∈ splitWsAux s acc, IsToken t := by
  induction s generalizing acc with
  | nil =>
    intro t htmem
    simp only [splitWsAux] at htmem
    split at htmem
    · simp at htmem
    · rename_i hne
      simp only [List.mem_singleton] at htmem
      subst htmem
      refine ⟨?_, ?_⟩
      · intro hrev
        rw [List.reverse_eq_nil_iff] at hrev
        subst hrev
        simp at hne
      · intro c hc
        exact hacc c (List.mem_reverse.mp hc)
  | cons c cs ih =>
    intro t htmem
    simp only [splitWsAux] at htmem
    by_cases hc : isWs c
    · rw [if_pos hc] at htmem
      by_cases hae : acc.isEmpty
      · rw [if_pos hae] at htmem
        exact ih [] (by simp) t htmem
      · rw [if_neg hae] at htmem
        rcases List.mem_cons.mp htmem with h1 | h2
        · subst h1
          refine ⟨?_, fun d hd => hacc d (List.mem_reverse.mp hd)⟩
          intro hrev
          rw [List.reverse_eq_nil_iff] at hrev
          subst hrev
          simp at hae
        · exact ih [] (by simp) t h2
    · rw [if_neg hc] at htmem
      refine ih (c :: acc) ?_ t htmem
      intro d hd
      rcases List.mem_cons.mp hd with h1 | h2
      · subst h1; exact Bool.of_not_eq_true hc
      · exact hacc d h2

theorem splitWs_tokens (s : Str) : ∀ t ∈ splitWs s, IsToken t :=
  splitWsAux_tokens s [] (by simp)

theorem mem_joinSp (ts : List Str) (c : Char) (hc : c ∈ joinSp ts) :
    c = ' ' ∨ ∃ t ∈ ts, c ∈ t := by
  induction ts with
  | nil => simp [joinSp] at hc
  | cons t rest ih =>
    simp only [joinSp] at hc
    rcases List.mem_append.mp hc with h1 | h2
    · exact Or.inr ⟨t, by simp, h1⟩
    · by_cases he : rest.isEmpty
      · rw [if_pos he] at h2; simp at h2
      · rw [if_neg he] at h2
        rcases List.mem_cons.mp h2 with h3 | h4
        · exact Or.inl h3
        · rcases ih h4 with h5 | ⟨u, hu, hcu⟩
          · exact Or.inl h5
          · exact Or.inr ⟨u, by simp [hu], hcu⟩

theorem dropWhile_cons_of_neg (c : Char) (s : Str) (hc : isWs c = false) :
    (c :: s).dropWhile isWs = c :: s := by
  simp [List.dropWhile, hc]

theorem dropWhile_ws_append (sp s : Str) (hsp : ∀ c ∈ sp, isWs c = true) :
    (sp ++ s).dropWhile isWs = s.dropWhile isWs := by
  induction sp with
  | nil => rfl
  | cons c cs ih =>
    have hc := hsp c (by simp)
    simp only [List.cons_append, List.dropWhile, hc]
    exact ih (fun d hd => hsp d (by simp [hd]))

theorem trim_ws_append (sp s : Str) (hsp : ∀ c ∈ sp, isWs c = true) :
    trim (sp ++ s) = trim s := by
  unfold trim
  rw [dropWhile_ws_append sp s hsp]

theorem trimRight_of_last (s : Str) (c : Char) (r : Str)
    (h : s.reverse = c :: r) (hc : isWs c = false) : trimRight s = s := by
  unfold trimRight
  rw [h, dropWhile_cons_of_neg c r hc, ← h, List.reverse_reverse]

theorem joinSp_reverse_head (ts : List Str) (h : ∀ t ∈ ts, IsToken t)
    (h0 : ts ≠ []) :
    ∃ c r, (joinSp ts).reverse = c :: r ∧ isWs c = false := by
  induction ts with
  | nil => exact absurd rfl h0
  | cons t rest ih =>
    cases rest with
    | nil =>
      obtain ⟨ht0, htw⟩ := h t (by simp)
      have hj : joinSp [t] = t := by simp [joinSp]
      rw [hj]
      cases hrev : t.reverse with
      | nil => rw [List.reverse_eq_nil_iff] at hrev; exact absurd hrev ht0
      | cons c r =>
        refine ⟨c, r, rfl, htw c ?_⟩
        have : c ∈ t.reverse := by rw [hrev]; simp
        exact List.mem_reverse.mp this
    | cons u rest' =>
      obtain ⟨c, r, hcr, hc⟩ := ih (fun v hv => h v (by simp [hv])) (by simp)
      have hj : joinSp (t :: u :: rest') = t ++ ' ' :: joinSp (u :: rest') := by
        simp [joinSp]
      refine ⟨c, r ++ ' ' :: t.reverse, ?_, hc⟩
      rw [hj, List.reverse_append, List.reverse_cons, hcr]
      simp

theorem trim_joinSp (ts : List Str) (h : ∀ t ∈ ts, IsToken t)
    (h0 : ts ≠ []) : trim (joinSp ts) = joinSp ts := by
  obtain ⟨c, r, hcr, hc⟩ := joinSp_reverse_head ts h h0
  have hhead : ∃ d s', joinSp ts = d :: s' ∧ isWs d = false := by
    cases ts with
    | nil => exact absurd rfl h0
    | cons t rest =>
      obtain ⟨ht0, htw⟩ := h t (by simp)
      cases t with
      | nil => exact absurd rfl ht0
      | cons d t' =>
        refine ⟨d, t' ++ (if rest.isEmpty then [] else ' ' :: joinSp rest),
          ?_, htw d (by simp)⟩
        simp [joinSp]
  obtain ⟨d, s', hds, hd⟩ := hhead
  unfold trim
  rw [hds, dropWhile_cons_of_neg d s' hd, ← hds]
  exact trimRight_of_last _ c r hcr hc

theorem single_isPrefixOf (c : Char) (s : Str) :
    [c].isPrefixOf s = true ↔ ∃ r, s = c :: r := by
  constructor
  · intro h
    rw [List.isPrefixOf_iff_prefix] at h
    obtain ⟨r, hr⟩ := h
    exact ⟨r, hr.symm⟩
  · rintro ⟨r, rfl⟩
    rw [List.isPrefixOf_iff_prefix]
    exact ⟨r, rfl⟩

theorem isPrefixOf_append_cons_ws (p k : Str) (c : Char) (v : Str)
    (hc : isWs c = true) (hp : ∀ d ∈ p, isWs d = false)
    (h : p.isPrefixOf (k ++ c :: v) = true) : p.isPrefixOf k = true := by
  induction p generalizing k with
  | nil => simp [List.isPrefixOf]
  | cons d ds ih =>
    cases k with
    | nil =>
      simp only [List.nil_append] at h
      rw [List.isPrefixOf_iff_prefix] at h
      obtain ⟨r, hr⟩ := h
      have : d = c := by
        have := congrArg List.head? hr
        simpa using this
      subst this
      exact absurd hc (by simp [hp d (by simp)])
    | cons e k' =>
      simp only [List.cons_append, List.isPrefixOf, Bool.and_eq_true, beq_iff_eq] at h ⊢
      exact ⟨h.1, ih k' (fun x hx => hp x (by simp [hx])) h.2⟩

theorem prefix_exists_of_isPrefixOf (p s : Str) (h : p.isPrefixOf s = true) :
    ∃ r, s = p ++ r := by
  rw [List.isPrefixOf_iff_prefix] at h
  obtain ⟨r, hr⟩ := h
  exact ⟨r, hr.symm⟩

theorem hash_not_isPrefixOf (s : Str)
    (h : "source".data.isPrefixOf s = true) : "#".data.isPrefixOf s = false := by
  obtain ⟨r, rfl⟩ := prefix_exists_of_isPrefixOf _ _ h
  rfl

/-! ## Lemmas about line splitting of rendered text -/

theorem splitLines_append_nl (l r : Str) (hl : '\n' ∉ l) :
    splitLines (l ++ '\n' :: r) = l :: splitLines r := by
  induction l with
  | nil => simp [splitLines]
  | cons c cs ih =>
    have hc : ¬ c = '\n' := fun hh => hl (by simp [hh])
    have h2 : splitLines ((c :: cs) ++ '\n' :: r) =
        match splitLines (cs ++ '\n' :: r) with
        | [] => [[c]]
        | l :: ls => (c :: l) :: ls := by
      simp [splitLines, hc]
    rw [h2, ih (fun hh => hl (by simp [hh]))]

theorem stripCR_eq_self (l : Str) (h : l.getLast? ≠ some '\r') :
    stripCR l = l := by
  unfold stripCR
  split
  · rename_i heq
    exact absurd heq h
  · rfl

theorem splitLines_unlinesN (L : List Str) (h : ∀ l ∈ L, '\n' ∉ l) :
    splitLines (unlinesN L) = L ++ [[]] := by
  induction L with
  | nil => rfl
  | cons l ls ih =>
    show splitLines (l ++ '\n' :: unlinesN ls) = _
    rw [splitLines_append_nl l _ (h l (by simp)), ih (fun x hx => h x (by simp [hx]))]
    rfl

theorem map_stripCR_eq_self (M : List Str)
    (hM : ∀ l ∈ M, l.getLast? ≠ some '\r') : M.map stripCR = M := by
  induction M with
  | nil => rfl
  | cons x xs ih =>
    simp [stripCR_eq_self x (hM x (by simp)),
      ih (fun y hy => hM y (by simp [hy]))]

theorem lines_unlinesN (L : List Str)
    (h : ∀ l ∈ L, '\n' ∉ l ∧ l.getLast? ≠ some '\r') :
    lines (unlinesN L) = L := by
  have hsp : splitLines (unlinesN L) = L ++ [[]] :=
    splitLines_unlinesN L (fun l hl => (h l hl).1)
  have h1 : (L ++ [([] : Str)]).dropLast = L := List.dropLast_concat
  have h2 : (L ++ [([] : Str)]).getLast? = some [] := by
    rw [List.getLast?_append]; rfl
  simp only [lines, hsp, h1, h2]
  rw [map_stripCR_eq_self L (fun l hl => (h l hl).2)]
  simp

/-! ## Step lemmas: how `step` acts on a built content line -/

theorem joinSp_cons_ne_nil (t0 : Str) (rest : List Str) (h0 : t0 ≠ []) :
    joinSp (t0 :: rest) ≠ [] := by
  cases t0 with
  | nil => exact absurd rfl h0
  | cons c t' => simp [joinSp]

theorem hash_prefix_join (t0 : Str) (rest : List Str) (h0 : t0 ≠ [])
    (hh : "#".data.isPrefixOf t0 = false) :
    "#".data.isPrefixOf (joinSp (t0 :: rest)) = false := by
  cases t0 with
  | nil => exact absurd rfl h0
  | cons c t' =>
    have hj : joinSp ((c :: t') :: rest) =
        c :: (t' ++ (if rest.isEmpty then [] else ' ' :: joinSp rest)) := by
      simp [joinSp]
    rw [hj]
    simp only [show ("#".data : Str) = ['#'] from rfl, List.isPrefixOf,
      Bool.and_eq_true, Bool.and_eq_false_iff] at hh ⊢
    rcases hh with h1 | h2
    · exact Or.inl h1
    · simp [List.isPrefixOf] at h2

theorem source_prefix_join (t0 : Str) (rest : List Str)
    (hs : "source".data.isPrefixOf t0 = false) :
    "source".data.isPrefixOf (joinSp (t0 :: rest)) = false := by
  cases rest with
  | nil =>
    have : joinSp [t0] = t0 := by simp [joinSp]
    rw [this]; exact hs
  | cons u rest' =>
    have hj : joinSp (t0 :: u :: rest') = t0 ++ ' ' :: joinSp (u :: rest') := by
      simp [joinSp]
    rw [hj]
    by_contra hcon
    have hcon' : "source".data.isPrefixOf (t0 ++ ' ' :: joinSp (u :: rest')) = true := by
      revert hcon
      cases "source".data.isPrefixOf (t0 ++ ' ' :: joinSp (u :: rest')) <;> simp
    have := isPrefixOf_append_cons_ws "source".data t0 ' ' _ rfl
      (by decide) hcon'
    rw [this] at hs
    exact Bool.true_eq_false.mp hs

/-- Classification of a content line: when the trimmed line is a join of
tokens whose head does not start with `#` or `source`, `step` reaches the
directive dispatch. -/
theorem step_content (n : Nat) (raw : Str) (st : PState) (t0 : Str)
    (rest : List Str) (hline : trim raw = joinSp (t0 :: rest))
    (htoks : ∀ t ∈ t0 :: rest, IsToken t)
    (hhash : "#".data.isPrefixOf t0 = false)
    (hsrc : "source".data.isPrefixOf t0 = false) :
    step n raw st = stepTokens n t0 rest st := by
  have ht0 := htoks t0 (by simp)
  unfold step
  simp only [hline]
  rw [hash_prefix_join t0 rest ht0.1 hhash,
    source_prefix_join t0 rest hsrc]
  have hne : joinSp (t0 :: rest) ≠ [] := joinSp_cons_ne_nil t0 rest ht0.1
  have hemp : (joinSp (t0 :: rest)).isEmpty = false := by
    cases hjj : joinSp (t0 :: rest) with
    | nil => exact absurd hjj hne
    | cons a b => rfl
  simp only [hemp, Bool.false_eq_true, if_false, splitWs_joinSp _ htoks]

theorem allow_pref_self (tag : Str) :
    "allow-".data.isPrefixOf ("allow-".data ++ tag) = true := by
  rw [List.isPrefixOf_iff_prefix]
  exact ⟨tag, rfl⟩

theorem allow_drop6 (tag : Str) : ("allow-".data ++ tag).drop 6 = tag :=
  List.drop_left "allow-".data tag

theorem allow_append_ne_auto (tag : Str) :
    "allow-".data ++ tag ≠ "auto".data := by
  intro h
  have h1 : ("allow-".data ++ tag)[1]? = some 'l' := rfl
  rw [h] at h1
  exact absurd h1 (by decide)

theorem allow_append_ne_iface (tag : Str) :
    "allow-".data ++ tag ≠ "iface".data := by
  intro h
  have h1 : ("allow-".data ++ tag)[0]? = some 'a' := rfl
  rw [h] at h1
  exact absurd h1 (by decide)

theorem allow_append_ne_mapping (tag : Str) :
    "allow-".data ++ tag ≠ "mapping".data := by
  intro h
  have h1 : ("allow-".data ++ tag)[0]? = some 'a' := rfl
  rw [h] at h1
  exact absurd h1 (by decide)

theorem isFlushKeyword_allow (tag : Str) :
    isFlushKeyword ("allow-".data ++ tag) = true := by
  unfold isFlushKeyword
  rw [decide_eq_true_iff]
  exact Or.inr (Or.inr (Or.inr (allow_pref_self tag)))

theorem stepTokens_auto (n : Nat) (names : List Str) (st : PState) :
    stepTokens n "auto".data names st =
      .ok ⟨names.foldl autoOne (flushDir st), none, st.comments, st.sources⟩ := by
  unfold stepTokens
  rw [show isFlushKeyword "auto".data = true from by decide]
  rw [if_pos rfl]
  rfl

theorem stepTokens_allow (n : Nat) (tag : Str) (names : List Str) (st : PState) :
    stepTokens n ("allow-".data ++ tag) names st =
      .ok ⟨names.foldl (allowOne tag) (flushDir st), none,
           st.comments, st.sources⟩ := by
  unfold stepTokens
  rw [isFlushKeyword_allow tag]
  rw [if_neg (allow_append_ne_auto tag), allow_pref_self tag]
  rw [allow_drop6 tag]
  rfl

theorem stepTokens_iface (n : Nat) (name : Str) (args : List Str)
    (st : PState) :
    stepTokens n "iface".data (name :: args) st =
      .ok ⟨removeA name (flushDir st),
           some (applyIfaceArgs
             (match getA name (flushDir st) with
              | some e => e
              | none => newIface name) args),
           st.comments, st.sources⟩ := by
  unfold stepTokens
  rw [show isFlushKeyword "iface".data = true from by decide]
  rw [if_neg (by decide : ¬ ("iface".data : Str) = "auto".data)]
  rw [show "allow-".data.isPrefixOf "iface".data = false from by decide]
  rw [if_pos rfl]
  rfl

theorem stepTokens_iface_noname (n : Nat) (st : PState) :
    stepTokens n "iface".data [] st =
      .error ⟨missingNameMsg, some (n + 1)⟩ := by
  unfold stepTokens
  rw [show isFlushKeyword "iface".data = true from by decide]
  rw [if_neg (by decide : ¬ ("iface".data : Str) = "auto".data)]
  rw [show "allow-".data.isPrefixOf "iface".data = false from by decide]
  rw [if_pos rfl]
  rfl

theorem stepTokens_mapping (n : Nat) (pat : List Str) (st : PState) :
    stepTokens n "mapping".data pat st = .ok (flushState st) := by
  unfold stepTokens
  rw [show isFlushKeyword "mapping".data = true from by decide]
  rw [if_neg (by decide : ¬ ("mapping".data : Str) = "auto".data)]
  rw [show "allow-".data.isPrefixOf "mapping".data = false from by decide]
  rw [if_neg (by decide : ¬ ("mapping".data : Str) = "iface".data)]
  rw [if_pos rfl]
  rfl

theorem stepTokens_opt (n : Nat) (t0 : Str) (rest : List Str) (st : PState)
    (h1 : t0 ≠ "auto".data) (h2 : "allow-".data.isPrefixOf t0 = false)
    (h3 : t0 ≠ "iface".data) (h4 : t0 ≠ "mapping".data) :
    stepTokens n t0 rest st =
      match st.current with
      | some i =>
        .ok { st with
              current := some { i with options := i.options ++ [(t0, joinSp rest)] } }
      | none => .ok st := by
  unfold stepTokens
  have hfk : isFlushKeyword t0 = false := by
    unfold isFlushKeyword
    rw [decide_eq_false_iff_not]
    push_neg
    refine ⟨h1, h4, h3, ?_⟩
    simp [h2]
  rw [hfk]
  rw [if_neg h1, h2, if_neg h3, if_neg h4]
  rfl

/-! ## Run lemmas -/

theorem run_append (a b : List (Nat × Str)) (st : PState) :
    run (a ++ b) st =
      match run a st with
      | .ok st' => run b st'
      | .error e => .error e := by
  induction a generalizing st with
  | nil => rfl
  | cons hd tl ih =>
    obtain ⟨n, l⟩ := hd
    have h1 : run ((n, l) :: (tl ++ b)) st =
        match step n l st with
        | .ok st' => run (tl ++ b) st'
        | .error e => .error e := rfl
    have h2 : run ((n, l) :: tl) st =
        match step n l st with
        | .ok st' => run tl st'
        | .error e => .error e := rfl
    show run ((n, l) :: (tl ++ b)) st = _
    rw [h1, h2]
    cases step n l st with
    | ok st' => exact ih st'
    | error e => rfl

theorem withNums_append (k : Nat) (a b : List Str) :
    withNums k (a ++ b) = withNums k a ++ withNums (k + a.length) b := by
  induction a generalizing k with
  | nil => simp [withNums]
  | cons hd tl ih =>
    show withNums k (hd :: (tl ++ b)) = _
    unfold withNums
    rw [ih (k + 1)]
    have h3 : k + 1 + tl.length = k + (hd :: tl).length := by
      rw [List.length_cons]; omega
    rw [h3, List.cons_append]
    cases b <;> rfl

theorem line_ok (ts : List Str) (h : ∀ t ∈ ts, IsToken t) (h0 : ts ≠ []) :
    '\n' ∉ joinSp ts ∧ (joinSp ts).getLast? ≠ some '\r' := by
  constructor
  · intro hmem
    rcases mem_joinSp ts '\n' hmem with h1 | ⟨t, ht, hc⟩
    · exact absurd h1 (by decide)
    · exact absurd ((h t ht).2 '\n' hc) (by decide)
  · obtain ⟨c, r, hcr, hc⟩ := joinSp_reverse_head ts h h0
    rw [List.getLast?_eq_head?_reverse, hcr]
    intro hcon
    have : c = '\r' := by simpa using hcon
    subst this
    exact absurd hc (by decide)

theorem parse_unlinesN (L : List Str)
    (hL : ∀ l ∈ L, '\n' ∉ l ∧ l.getLast? ≠ some '\r') :
    Parser.parse (unlinesN L) =
      match run (withNums 0 L) initState with
      | .error e => .error e
      | .ok st => .ok ⟨flushDir st, st.comments, st.sources⟩ := by
  unfold Parser.parse
  rw [lines_unlinesN L hL]

/-! ## Step lemmas for the specific built lines -/

theorem step_autoLine (n : Nat) (X : Str) (hX : IsToken X) (st : PState) :
    step n (autoLine X) st =
      .ok ⟨autoOne (flushDir st) X, none, st.comments, st.sources⟩ := by
  have htoks : ∀ t ∈ ["auto".data, X], IsToken t := by
    intro t ht
    rcases List.mem_cons.mp ht with h1 | h2
    · subst h1; exact (by decide : IsToken "auto".data)
    · rcases List.mem_cons.mp h2 with h3 | h4
      · subst h3; exact hX
      · simp at h4
  have hline : trim (autoLine X) = joinSp ("auto".data :: [X]) :=
    trim_joinSp _ htoks (by simp)
  rw [step_content n _ st "auto".data [X] hline htoks (by decide) (by decide)]
  rw [stepTokens_auto]
  rfl

theorem step_allowHotplugLine (n : Nat) (X : Str) (hX : IsToken X)
    (st : PState) :
    step n (allowHotplugLine X) st =
      .ok ⟨allowOne "hotplug".data (flushDir st) X, none,
           st.comments, st.sources⟩ := by
  have htoks : ∀ t ∈ ["allow-hotplug".data, X], IsToken t := by
    intro t ht
    rcases List.mem_cons.mp ht with h1 | h2
    · subst h1; exact (by decide : IsToken "allow-hotplug".data)
    · rcases List.mem_cons.mp h2 with h3 | h4
      · subst h3; exact hX
      · simp at h4
  have hline : trim (allowHotplugLine X) = joinSp ("allow-hotplug".data :: [X]) :=
    trim_joinSp _ htoks (by simp)
  rw [step_content n _ st "allow-hotplug".data [X] hline htoks (by decide) (by decide)]
  rw [show ("allow-hotplug".data : Str) = "allow-".data ++ "hotplug".data from rfl]
  rw [stepTokens_allow]
  rfl

theorem step_ifaceArgsLine (n : Nat) (X : Str) (args : List Str)
    (hX : IsToken X) (hargs : ∀ t ∈ args, IsToken t) (st : PState) :
    step n (ifaceArgsLine X args) st =
      .ok ⟨removeA X (flushDir st),
           some (applyIfaceArgs
             (match getA X (flushDir st) with
              | some e => e
              | none => newIface X) args),
           st.comments, st.sources⟩ := by
  have htoks : ∀ t ∈ "iface".data :: X :: args, IsToken t := by
    intro t ht
    rcases List.mem_cons.mp ht with h1 | h2
    · subst h1; exact (by decide : IsToken "iface".data)
    · rcases List.mem_cons.mp h2 with h3 | h4
      · subst h3; exact hX
      · exact hargs t h4
  have hline : trim (ifaceArgsLine X args) = joinSp ("iface".data :: X :: args) :=
    trim_joinSp _ htoks (by simp)
  rw [step_content n _ st "iface".data (X :: args) hline htoks (by decide) (by decide)]
  rw [stepTokens_iface]

theorem step_optLine (n : Nat) (p : Str × List Str) (hp : OptTokens p)
    (st : PState) (i : Interface) (hcur : st.current = some i) :
    step n (optLine p) st =
      .ok { st with
            current := some { i with options := i.options ++ [parsedOpt p] } } := by
  obtain ⟨hk, hv, h1, h3, h4, h2, hsrc, hhash⟩ := hp
  have htoks : ∀ t ∈ p.1 :: p.2, IsToken t := by
    intro t ht
    rcases List.mem_cons.mp ht with he | hm
    · subst he; exact hk
    · exact hv t hm
  have hline : trim (optLine p) = joinSp (p.1 :: p.2) :=
    trim_joinSp _ htoks (by simp)
  rw [step_content n _ st p.1 p.2 hline htoks hhash hsrc]
  rw [stepTokens_opt n p.1 p.2 st h1 h2 h3 h4]
  rw [hcur]
  rfl

theorem run_optLines (nl : List (Nat × Str)) (ol : List (Str × List Str))
    (hf : List.Forall₂ (fun (q : Nat × Str) (p : Str × List Str) =>
      q.2 = optLine p) nl ol)
    (ho : ∀ p ∈ ol, OptTokens p) (st : PState) (i : Interface)
    (hcur : st.current = some i) :
    run nl st =
      .ok { st with
            current := some { i with options := i.options ++ ol.map parsedOpt } } := by
  induction hf generalizing st i with
  | nil =>
    obtain ⟨ifs, cur, cms, srcs⟩ := st
    simp only at hcur
    subst hcur
    simp only [run, List.map_nil, List.append_nil]
  | cons hq htl ih =>
    rename_i q p nl' ol'
    obtain ⟨n, l⟩ := q
    simp only at hq
    subst hq
    have hrun : run ((n, optLine p) :: nl') st =
        match step n (optLine p) st with
        | .ok st' => run nl' st'
        | .error e => .error e := rfl
    show run ((n, optLine p) :: nl') st = _
    rw [hrun, step_optLine n p (ho p (by simp)) st i hcur]
    show run nl'
      ({ st with current := some { i with options := i.options ++ [parsedOpt p] } }) = _
    rw [ih (fun x hx => ho x (by simp [hx]))
      ({ st with current := some { i with options := i.options ++ [parsedOpt p] } })
      ({ i with options := i.options ++ [parsedOpt p] }) rfl]
    simp [List.append_assoc]

theorem run_cons (n : Nat) (l : Str) (nl : List (Nat × Str)) (st st' : PState)
    (h : step n l st = .ok st') : run ((n, l) :: nl) st = run nl st' := by
  have h1 : run ((n, l) :: nl) st =
      match step n l st with
      | .ok s => run nl s
      | .error e => .error e := rfl
  rw [h1, h]

theorem forall2_withNums_optLines (k : Nat) (opts : List (Str × List Str)) :
    List.Forall₂ (fun (q : Nat × Str) (p : Str × List Str) => q.2 = optLine p)
      (withNums k (opts.map optLine)) opts := by
  induction opts generalizing k with
  | nil => constructor
  | cons p ps ih =>
    show List.Forall₂ _ ((k, optLine p) :: withNums (k + 1) (ps.map optLine)) _
    exact List.Forall₂.cons rfl (ih (k + 1))

theorem applyIfaceArgs_none (b : Interface) (args : List Str)
    (hf : b.family = none) (hm : b.method = none) :
    applyIfaceArgs b args = { b with family := famOf args, method := methOf args } := by
  unfold applyIfaceArgs
  cases hfa : famOf args with
  | none =>
    cases hma : methOf args with
    | none => simp [hf, hm]; rw [← hf, ← hm]
    | some m => simp [hf, hm]
  | some f =>
    cases hma : methOf args with
    | none => simp [hf, hm]
    | some m => simp [hf, hm]

theorem run_ifaceBlock (k : Nat) (X fam meth : Str)
    (opts : List (Str × List Str)) (hX : IsToken X) (hfam : IsToken fam)
    (hmeth : IsToken meth) (hopts : ∀ p ∈ opts, OptTokens p) (st : PState) :
    run (withNums k (ifaceArgsLine X [fam, meth] :: opts.map optLine)) st =
      .ok ⟨removeA X (flushDir st),
           some { applyIfaceArgs (ifaceBase X (flushDir st)) [fam, meth] with
                  options :=
                    (applyIfaceArgs (ifaceBase X (flushDir st)) [fam, meth]).options
                      ++ opts.map parsedOpt },
           st.comments, st.sources⟩ := by
  have hargs : ∀ t ∈ [fam, meth], IsToken t := by
    intro t ht
    rcases List.mem_cons.mp ht with h1 | h2
    · subst h1; exact hfam
    · rcases List.mem_cons.mp h2 with h3 | h4
      · subst h3; exact hmeth
      · simp at h4
  show run ((k, ifaceArgsLine X [fam, meth]) ::
    withNums (k + 1) (opts.map optLine)) st = _
  rw [run_cons k _ _ st _ (step_ifaceArgsLine k X [fam, meth] hX hargs st)]
  rw [run_optLines _ opts (forall2_withNums_optLines (k + 1) opts) hopts _
    (applyIfaceArgs (ifaceBase X (flushDir st)) [fam, meth]) rfl]

theorem withNums_cons (k : Nat) (l : Str) (ls : List Str) :
    withNums k (l :: ls) = (k, l) :: withNums (k + 1) ls := rfl

theorem getA_cons_self (X : Str) (v : Interface) (d : Dir) :
    getA X ((X, v) :: d) = some v := by simp [getA]

theorem updateA_cons_self (X : Str) (f : Interface → Interface)
    (v : Interface) (d : Dir) :
    updateA X f ((X, v) :: d) = (X, f v) :: d := by simp [updateA]

theorem removeA_cons_self (X : Str) (v : Interface) (d : Dir) :
    removeA X ((X, v) :: d) = d := by simp [removeA]

theorem ifaceBase_cons_self (X : Str) (v : Interface) (d : Dir) :
    ifaceBase X ((X, v) :: d) = v := by
  simp [ifaceBase, getA_cons_self]


theorem run_append_ok (a b : List (Nat × Str)) (st st' : PState)
    (h : run a st = .ok st') : run (a ++ b) st = run b st' := by
  rw [run_append, h]

set_option maxHeartbeats 2000000 in
/-- C1: for any permutation of the `auto X`, `allow-hotplug X` and
`iface X <family> <method>` lines (each appearing exactly once, option
lines placed directly after the `iface` line), `Parser::parse` produces
the same single-entry directory — the same auto flag, allow list, family,
method and options for `X` — regardless of the permutation. -/
theorem C1_order_independence (X fam meth : Str) (opts : List (Str × List Str))
    (hX : IsToken X) (hfam : IsToken fam) (hmeth : IsToken meth)
    (hopts : ∀ p ∈ opts, OptTokens p) :
    ∀ ar ∈ arrangements X fam meth opts,
      Parser.parse (unlinesN ar) =
        .ok ⟨[(X, expectedIface X fam meth opts)], [], []⟩ := by
  have htoksA : ∀ t ∈ ["auto".data, X], IsToken t := by
    intro t ht
    rcases List.mem_cons.mp ht with h1 | h2
    · subst h1; exact (by decide : IsToken "auto".data)
    · rcases List.mem_cons.mp h2 with h3 | h4
      · subst h3; exact hX
      · simp at h4
  have htoksL : ∀ t ∈ ["allow-hotplug".data, X], IsToken t := by
    intro t ht
    rcases List.mem_cons.mp ht with h1 | h2
    · subst h1; exact (by decide : IsToken "allow-hotplug".data)
    · rcases List.mem_cons.mp h2 with h3 | h4
      · subst h3; exact hX
      · simp at h4
  have htoksI : ∀ t ∈ "iface".data :: X :: [fam, meth], IsToken t := by
    intro t ht
    rcases List.mem_cons.mp ht with h1 | h2
    · subst h1; exact (by decide : IsToken "iface".data)
    · rcases List.mem_cons.mp h2 with h3 | h4
      · subst h3; exact hX
      · rcases List.mem_cons.mp h4 with h5 | h6
        · subst h5; exact hfam
        · rcases List.mem_cons.mp h6 with h7 | h8
          · subst h7; exact hmeth
          · simp at h8
  have hokA : '\n' ∉ autoLine X ∧ (autoLine X).getLast? ≠ some '\r' :=
    line_ok _ htoksA (by simp)
  have hokL : '\n' ∉ allowHotplugLine X ∧
      (allowHotplugLine X).getLast? ≠ some '\r' :=
    line_ok _ htoksL (by simp)
  have hokI : '\n' ∉ ifaceArgsLine X [fam, meth] ∧
      (ifaceArgsLine X [fam, meth]).getLast? ≠ some '\r' :=
    line_ok _ htoksI (by simp)
  have hokO : ∀ p ∈ opts, '\n' ∉ optLine p ∧ (optLine p).getLast? ≠ some '\r' := by
    intro p hp
    obtain ⟨hk, hv, _⟩ := hopts p hp
    refine line_ok (p.1 :: p.2) ?_ (by simp)
    intro t ht
    rcases List.mem_cons.mp ht with h1 | h2
    · subst h1; exact hk
    · exact hv t h2
  have hmem : ∀ l, (l = autoLine X ∨ l = allowHotplugLine X ∨
      l = ifaceArgsLine X [fam, meth] ∨ ∃ p ∈ opts, optLine p = l) →
      '\n' ∉ l ∧ l.getLast? ≠ some '\r' := by
    rintro l (rfl | rfl | rfl | ⟨p, hp, rfl⟩)
    exacts [hokA, hokL, hokI, hokO p hp]
  have h1A : step 0 (autoLine X) initState =
      .ok ⟨[(X, ⟨X, true, [], none, none, [], none⟩)], none, [], []⟩ := by
    rw [step_autoLine 0 X hX initState]; rfl
  have h1L : step 0 (allowHotplugLine X) initState =
      .ok ⟨[(X, ⟨X, false, ["hotplug".data], none, none, [], none⟩)],
           none, [], []⟩ := by
    rw [step_allowHotplugLine 0 X hX initState]; rfl
  intro ar har
  simp only [arrangements, List.mem_cons, List.not_mem_nil, or_false] at har
  rcases har with rfl | rfl | rfl | rfl | rfl | rfl
  · -- auto, allow, iface block
    rw [parse_unlinesN _ (fun l hl => hmem l (by simp at hl; tauto))]
    simp only [List.cons_append, List.nil_append]
    rw [withNums_cons, withNums_cons]
    rw [run_cons 0 _ _ _ _ h1A]
    rw [run_cons _ _ _ _ _ (step_allowHotplugLine _ X hX _)]
    rw [run_ifaceBlock _ X fam meth opts hX hfam hmeth hopts _]
    simp [flushDir, removeA_cons_self, ifaceBase_cons_self, insertA,
      allowOne, getA_cons_self, updateA_cons_self, applyIfaceArgs_none,
      expectedIface]
  · -- auto, iface block, allow
    rw [parse_unlinesN _ (fun l hl => hmem l (by simp at hl; tauto))]
    simp only [List.cons_append, List.nil_append]
    rw [withNums_cons]
    simp only [Nat.zero_add]
    rw [← List.cons_append (ifaceArgsLine X [fam, meth]) (opts.map optLine)
      [allowHotplugLine X]]
    rw [withNums_append 1 (ifaceArgsLine X [fam, meth] :: opts.map optLine)
      [allowHotplugLine X]]
    rw [run_cons 0 _ _ _ _ h1A]
    rw [run_append_ok _ _ _ _
      (run_ifaceBlock 1 X fam meth opts hX hfam hmeth hopts _)]
    rw [withNums_cons]
    rw [run_cons _ _ _ _ _ (step_allowHotplugLine _ X hX _)]
    simp [run, flushDir, removeA_cons_self, ifaceBase_cons_self, insertA,
      allowOne, getA_cons_self, updateA_cons_self, applyIfaceArgs_none,
      expectedIface]
  · -- allow, auto, iface block
    rw [parse_unlinesN _ (fun l hl => hmem l (by simp at hl; tauto))]
    simp only [List.cons_append, List.nil_append]
    rw [withNums_cons, withNums_cons]
    rw [run_cons 0 _ _ _ _ h1L]
    rw [run_cons _ _ _ _ _ (step_autoLine _ X hX _)]
    rw [run_ifaceBlock _ X fam meth opts hX hfam hmeth hopts _]
    simp [flushDir, removeA_cons_self, ifaceBase_cons_self, insertA,
      autoOne, getA_cons_self, updateA_cons_self, applyIfaceArgs_none,
      expectedIface]
  · -- allow, iface block, auto
    rw [parse_unlinesN _ (fun l hl => hmem l (by simp at hl; tauto))]
    simp only [List.cons_append, List.nil_append]
    rw [withNums_cons]
    simp only [Nat.zero_add]
    rw [← List.cons_append (ifaceArgsLine X [fam, meth]) (opts.map optLine)
      [autoLine X]]
    rw [withNums_append 1 (ifaceArgsLine X [fam, meth] :: opts.map optLine)
      [autoLine X]]
    rw [run_cons 0 _ _ _ _ h1L]
    rw [run_append_ok _ _ _ _
      (run_ifaceBlock 1 X fam meth opts hX hfam hmeth hopts _)]
    rw [withNums_cons]
    rw [run_cons _ _ _ _ _ (step_autoLine _ X hX _)]
    simp [run, flushDir, removeA_cons_self, ifaceBase_cons_self, insertA,
      autoOne, getA_cons_self, updateA_cons_self, applyIfaceArgs_none,
      expectedIface]
  · -- iface block, auto, allow
    rw [parse_unlinesN _ (fun l hl => hmem l (by simp at hl; tauto))]
    simp only [List.cons_append, List.nil_append]
    rw [← List.cons_append (ifaceArgsLine X [fam, meth]) (opts.map optLine)
      [autoLine X, allowHotplugLine X]]
    rw [withNums_append 0 (ifaceArgsLine X [fam, meth] :: opts.map optLine)
      [autoLine X, allowHotplugLine X]]
    rw [run_append_ok _ _ _ _
      (run_ifaceBlock 0 X fam meth opts hX hfam hmeth hopts _)]
    rw [withNums_cons, withNums_cons]
    rw [run_cons _ _ _ _ _ (step_autoLine _ X hX _)]
    rw [run_cons _ _ _ _ _ (step_allowHotplugLine _ X hX _)]
    simp [run, flushDir, removeA, insertA, ifaceBase, getA, newIface,
      autoOne, allowOne, getA_cons_self, updateA_cons_self,
      applyIfaceArgs_none, expectedIface, initState]
  · -- iface block, allow, auto
    rw [parse_unlinesN _ (fun l hl => hmem l (by simp at hl; tauto))]
    simp only [List.cons_append, List.nil_append]
    rw [← List.cons_append (ifaceArgsLine X [fam, meth]) (opts.map optLine)
      [allowHotplugLine X, autoLine X]]
    rw [withNums_append 0 (ifaceArgsLine X [fam, meth] :: opts.map optLine)
      [allowHotplugLine X, autoLine X]]
    rw [run_append_ok _ _ _ _
      (run_ifaceBlock 0 X fam meth opts hX hfam hmeth hopts _)]
    rw [withNums_cons, withNums_cons]
    rw [run_cons _ _ _ _ _ (step_allowHotplugLine _ X hX _)]
    rw [run_cons _ _ _ _ _ (step_autoLine _ X hX _)]
    simp [run, flushDir, removeA, insertA, ifaceBase, getA, newIface,
      autoOne, allowOne, getA_cons_self, updateA_cons_self,
      applyIfaceArgs_none, expectedIface, initState]

theorem updOpt_none (o : Option α) : updOpt o none = o := by
  cases o <;> rfl

theorem applyIfaceArgs_eq (b : Interface) (args : List Str) :
    applyIfaceArgs b args =
      { b with family := updOpt (famOf args) b.family,
               method := updOpt (methOf args) b.method } := by
  unfold applyIfaceArgs
  cases hfa : famOf args with
  | none =>
    cases hma : methOf args with
    | none => simp [updOpt]
    | some m => simp [updOpt]
  | some f =>
    cases hma : methOf args with
    | none => simp [updOpt]
    | some m => simp [updOpt]

theorem run_ifaceBlockArgs (k : Nat) (X : Str) (args : List Str)
    (opts : List (Str × List Str)) (hX : IsToken X)
    (hargs : ∀ t ∈ args, IsToken t)
    (hopts : ∀ p ∈ opts, OptTokens p) (st : PState) :
    run (withNums k (ifaceArgsLine X args :: opts.map optLine)) st =
      .ok ⟨removeA X (flushDir st),
           some { applyIfaceArgs (ifaceBase X (flushDir st)) args with
                  options :=
                    (applyIfaceArgs (ifaceBase X (flushDir st)) args).options
                      ++ opts.map parsedOpt },
           st.comments, st.sources⟩ := by
  show run ((k, ifaceArgsLine X args) ::
    withNums (k + 1) (opts.map optLine)) st = _
  rw [run_cons k _ _ st _ (step_ifaceArgsLine k X args hX hargs st)]
  rw [run_optLines _ opts (forall2_withNums_optLines (k + 1) opts) hopts _
    (applyIfaceArgs (ifaceBase X (flushDir st)) args) rfl]

/-- Witness for C1: the six arrangements at `X=eth0`, `inet dhcp`, with
one `mtu 1500` option, all parse to the same record (instantiated here at
the first arrangement). -/
theorem C1_order_independence_w :
    Parser.parse (unlinesN ([autoLine "eth0".data, allowHotplugLine "eth0".data] ++
      (ifaceArgsLine "eth0".data ["inet".data, "dhcp".data] ::
        [(("mtu".data : Str), ["1500".data])].map optLine))) =
      .ok ⟨[("eth0".data, expectedIface "eth0".data "inet".data "dhcp".data
        [("mtu".data, ["1500".data])])], [], []⟩ :=
  C1_order_independence "eth0".data "inet".data "dhcp".data
    [("mtu".data, ["1500".data])] (by decide) (by decide) (by decide)
    (by decide) _ (by simp [arrangements])

/-- C2 (amended): an `iface <name> <args...>` line yields exactly
`famOf args` as the family (the second token when it parses as a family)
and `methOf args` as the method: the second token is the method only when
it is the final token and no family was recognized, the third token is
the method only when it is the final token and a family was recognized,
and any longer argument list yields no method. -/
theorem C2_iface_family_method (X : Str) (args : List Str)
    (hX : IsToken X) (hargs : ∀ t ∈ args, IsToken t) :
    Parser.parse (unlinesN [ifaceArgsLine X args]) =
      .ok ⟨[(X, ⟨X, false, [], famOf args, methOf args, [], none⟩)],
           [], []⟩ := by
  have htoks : ∀ t ∈ "iface".data :: X :: args, IsToken t := by
    intro t ht
    rcases List.mem_cons.mp ht with h1 | h2
    · subst h1; exact (by decide : IsToken "iface".data)
    · rcases List.mem_cons.mp h2 with h3 | h4
      · subst h3; exact hX
      · exact hargs t h4
  have hok : ∀ l ∈ [ifaceArgsLine X args],
      '\n' ∉ l ∧ l.getLast? ≠ some '\r' := by
    intro l hl
    rcases List.mem_cons.mp hl with h1 | h2
    · subst h1; exact line_ok _ htoks (by simp)
    · simp at h2
  rw [parse_unlinesN _ hok]
  rw [withNums_cons]
  rw [run_cons _ _ _ _ _ (step_ifaceArgsLine 0 X args hX hargs _)]
  simp [run, flushDir, removeA, insertA, ifaceBase, getA, newIface,
    applyIfaceArgs_none, initState]

/-- Witness for the amended C2 at `iface eth0 foo bar`: four tokens with
an unrecognized family yield neither family nor method. -/
theorem C2_iface_family_method_w :
    Parser.parse (unlinesN [ifaceArgsLine "eth0".data ["foo".data, "bar".data]]) =
      .ok ⟨[("eth0".data, ⟨"eth0".data, false, [],
            famOf ["foo".data, "bar".data], methOf ["foo".data, "bar".data],
            [], none⟩)], [], []⟩ :=
  C2_iface_family_method "eth0".data ["foo".data, "bar".data]
    (by decide) (by decide)

set_option maxHeartbeats 2000000 in
/-- C10: a second `iface` line for an existing name does not reset the
accumulated state: options from the earlier stanza are retained with the
new stanza's options appended after them, and the auto flag, allow list,
family and method are kept whenever the new line supplies no
replacement. -/
theorem C10_iface_merge (X : Str) (args1 args2 : List Str)
    (opts1 opts2 : List (Str × List Str))
    (hX : IsToken X) (ha1 : ∀ t ∈ args1, IsToken t)
    (ha2 : ∀ t ∈ args2, IsToken t)
    (ho1 : ∀ p ∈ opts1, OptTokens p) (ho2 : ∀ p ∈ opts2, OptTokens p) :
    Parser.parse (unlinesN ([autoLine X, allowHotplugLine X] ++
      (ifaceArgsLine X args1 :: opts1.map optLine) ++
      (ifaceArgsLine X args2 :: opts2.map optLine))) =
      .ok ⟨[(X, ⟨X, true, ["hotplug".data],
            updOpt (famOf args2) (famOf args1),
            updOpt (methOf args2) (methOf args1),
            opts1.map parsedOpt ++ opts2.map parsedOpt, none⟩)], [], []⟩ := by
  have hokA : '\n' ∉ autoLine X ∧ (autoLine X).getLast? ≠ some '\r' := by
    refine line_ok _ ?_ (by simp)
    intro t ht
    rcases List.mem_cons.mp ht with h1 | h2
    · subst h1; exact (by decide : IsToken "auto".data)
    · rcases List.mem_cons.mp h2 with h3 | h4
      · subst h3; exact hX
      · simp at h4
  have hokL : '\n' ∉ allowHotplugLine X ∧
      (allowHotplugLine X).getLast? ≠ some '\r' := by
    refine line_ok _ ?_ (by simp)
    intro t ht
    rcases List.mem_cons.mp ht with h1 | h2
    · subst h1; exact (by decide : IsToken "allow-hotplug".data)
    · rcases List.mem_cons.mp h2 with h3 | h4
      · subst h3; exact hX
      · simp at h4
  have hokI : ∀ (args : List Str), (∀ t ∈ args, IsToken t) →
      '\n' ∉ ifaceArgsLine X args ∧
        (ifaceArgsLine X args).getLast? ≠ some '\r' := by
    intro args hargs
    refine line_ok _ ?_ (by simp)
    intro t ht
    rcases List.mem_cons.mp ht with h1 | h2
    · subst h1; exact (by decide : IsToken "iface".data)
    · rcases List.mem_cons.mp h2 with h3 | h4
      · subst h3; exact hX
      · exact hargs t h4
  have hokO : ∀ (opts : List (Str × List Str)), (∀ p ∈ opts, OptTokens p) →
      ∀ p ∈ opts, '\n' ∉ optLine p ∧ (optLine p).getLast? ≠ some '\r' := by
    intro opts hopts p hp
    obtain ⟨hk, hv, _⟩ := hopts p hp
    refine line_ok (p.1 :: p.2) ?_ (by simp)
    intro t ht
    rcases List.mem_cons.mp ht with h1 | h2
    · subst h1; exact hk
    · exact hv t h2
  have hok : ∀ l ∈ ([autoLine X, allowHotplugLine X] ++
      (ifaceArgsLine X args1 :: opts1.map optLine) ++
      (ifaceArgsLine X args2 :: opts2.map optLine)),
      '\n' ∉ l ∧ l.getLast? ≠ some '\r' := by
    intro l hl
    simp only [List.mem_append, List.mem_cons, List.mem_map,
      List.not_mem_nil, or_false] at hl
    rcases hl with ((rfl | rfl) | (rfl | ⟨p, hp, rfl⟩)) | (rfl | ⟨p, hp, rfl⟩)
    · exact hokA
    · exact hokL
    · exact hokI args1 ha1
    · exact hokO opts1 ho1 p hp
    · exact hokI args2 ha2
    · exact hokO opts2 ho2 p hp
  have h1A : step 0 (autoLine X) initState =
      .ok ⟨[(X, ⟨X, true, [], none, none, [], none⟩)], none, [], []⟩ := by
    rw [step_autoLine 0 X hX initState]; rfl
  rw [parse_unlinesN _ hok]
  simp only [List.cons_append, List.nil_append]
  rw [← List.cons_append (ifaceArgsLine X args1) (opts1.map optLine)]
  rw [withNums_cons, withNums_cons]
  rw [withNums_append 2 (ifaceArgsLine X args1 :: opts1.map optLine)]
  rw [run_cons 0 _ _ _ _ h1A]
  rw [run_cons _ _ _ _ _ (step_allowHotplugLine _ X hX _)]
  rw [run_append_ok _ _ _ _
    (run_ifaceBlockArgs 2 X args1 opts1 hX ha1 ho1 _)]
  rw [run_ifaceBlockArgs _ X args2 opts2 hX ha2 ho2 _]
  simp [flushDir, removeA_cons_self, ifaceBase_cons_self, insertA,
    allowOne, autoOne, getA_cons_self, updateA_cons_self,
    applyIfaceArgs_eq, updOpt_none, List.append_assoc]

/-- Witness for C10: `auto X`, `allow-hotplug X`, `iface X inet dhcp` with
`mtu 1500`, then a bare `iface X` with `vrf mgmt`: the second stanza keeps
auto, allow, family and method and appends its option. -/
theorem C10_iface_merge_w :
    Parser.parse (unlinesN ([autoLine "swp1".data, allowHotplugLine "swp1".data] ++
      (ifaceArgsLine "swp1".data ["inet".data, "dhcp".data] ::
        [(("mtu".data : Str), ["1500".data])].map optLine) ++
      (ifaceArgsLine "swp1".data [] ::
        [(("vrf".data : Str), ["mgmt".data])].map optLine))) =
      .ok ⟨[("swp1".data, ⟨"swp1".data, true, ["hotplug".data],
            updOpt (famOf []) (famOf ["inet".data, "dhcp".data]),
            updOpt (methOf []) (methOf ["inet".data, "dhcp".data]),
            [(("mtu".data : Str), ["1500".data])].map parsedOpt ++
              [(("vrf".data : Str), ["mgmt".data])].map parsedOpt, none⟩)],
           [], []⟩ :=
  C10_iface_merge "swp1".data ["inet".data, "dhcp".data] []
    [("mtu".data, ["1500".data])] [("vrf".data, ["mgmt".data])]
    (by decide) (by decide) (by decide) (by decide) (by decide)

theorem run_cons_error (n : Nat) (l : Str) (nl : List (Nat × Str))
    (st : PState) (e : ParserError) (h : step n l st = .error e) :
    run ((n, l) :: nl) st = .error e := by
  have h1 : run ((n, l) :: nl) st =
      match step n l st with
      | .ok s => run nl s
      | .error e' => .error e' := rfl
  rw [h1, h]

/-- C6 (amended): a `mapping <pattern>` line closes any open stanza and is
otherwise ignored: it creates no entry for the pattern and stores nothing,
and since no stanza remains open, its indented body lines (`script`, `map`)
are ignored as well. -/
theorem C6_mapping_amended :
    (∀ (st : PState) (n : Nat) (p : Str), IsToken p →
      step n (joinSp ["mapping".data, p]) st = .ok (flushState st)) ∧
    (∀ (st : PState) (n : Nat) (q : Str × List Str), OptTokens q →
      st.current = none → step n (optLine q) st = .ok st) := by
  constructor
  · intro st n p hp
    have htoks : ∀ t ∈ ["mapping".data, p], IsToken t := by
      intro t ht
      rcases List.mem_cons.mp ht with h1 | h2
      · subst h1; exact (by decide : IsToken "mapping".data)
      · rcases List.mem_cons.mp h2 with h3 | h4
        · subst h3; exact hp
        · simp at h4
    rw [step_content n _ st "mapping".data [p]
      (trim_joinSp _ htoks (by simp)) htoks (by decide) (by decide)]
    exact stepTokens_mapping n [p] st
  · intro st n q hq hcur
    obtain ⟨hk, hv, h1, h3, h4, h2, hsrc, hhash⟩ := hq
    have htoks : ∀ t ∈ q.1 :: q.2, IsToken t := by
      intro t ht
      rcases List.mem_cons.mp ht with he | hm
      · subst he; exact hk
      · exact hv t hm
    have hline : trim (optLine q) = joinSp (q.1 :: q.2) :=
      trim_joinSp _ htoks (by simp)
    rw [step_content n _ st q.1 q.2 hline htoks hhash hsrc]
    rw [stepTokens_opt n q.1 q.2 st h1 h2 h3 h4]
    rw [hcur]

/-- Witness for the amended C6: `mapping eth0` on a state with an open
stanza flushes it, and a `script` body line on a closed state is a
no-op. -/
theorem C6_mapping_amended_w :
    step 0 (joinSp ["mapping".data, "eth0".data])
      ⟨[], some (newIface "lo".data), [], []⟩ =
      .ok (flushState ⟨[], some (newIface "lo".data), [], []⟩) ∧
    step 1 (optLine ("script".data, ["/bin/s".data]))
      ⟨[], none, [], []⟩ = .ok ⟨[], none, [], []⟩ :=
  ⟨C6_mapping_amended.1 ⟨[], some (newIface "lo".data), [], []⟩ 0
      "eth0".data (by decide),
   C6_mapping_amended.2 ⟨[], none, [], []⟩ 1
      ("script".data, ["/bin/s".data]) (by decide) rfl⟩

/-- C7: when the lines of the input are some prefix that parses without
error, followed by a line that trims to exactly `iface` (no interface
name), `Parser::parse` aborts with a parse error carrying the 1-based
number of that line — the whole parse returns an error, so no partial
directory reaches the caller. -/
theorem C7_iface_missing_name (content : Str) (ls1 ls2 : List Str)
    (l : Str) (st : PState)
    (hsplit : lines content = ls1 ++ l :: ls2)
    (hpre : run (withNums 0 ls1) initState = .ok st)
    (hl : trim l = "iface".data) :
    Parser.parse content = .error ⟨missingNameMsg, some (ls1.length + 1)⟩ := by
  unfold Parser.parse
  rw [hsplit, withNums_append 0 ls1 (l :: ls2)]
  rw [run_append_ok _ _ _ _ hpre]
  rw [withNums_cons]
  have hline : trim l = joinSp ["iface".data] := by
    rw [hl]; simp [joinSp]
  have htoks1 : ∀ t ∈ ["iface".data], IsToken t := by
    intro t ht
    rcases List.mem_cons.mp ht with h1 | h2
    · subst h1; exact (by decide : IsToken "iface".data)
    · simp at h2
  have hstep := step_content (0 + ls1.length) l st "iface".data []
    hline htoks1 (by decide) (by decide)
  rw [run_cons_error _ _ _ _ _
    (by rw [hstep]; exact stepTokens_iface_noname (0 + ls1.length) st)]
  simp

/-- Witness for C7: `auto lo` then a bare `iface` line fails with line
number 2 and yields no parse result. -/
theorem C7_iface_missing_name_w :
    Parser.parse "auto lo\niface\n".data =
      .error ⟨missingNameMsg, some 2⟩ := by
  have h := C7_iface_missing_name "auto lo\niface\n".data
    ["auto lo".data] [] "iface".data
    ⟨[("lo".data, ⟨"lo".data, true, [], none, none, [], none⟩)], none, [], []⟩
    (by rfl) (by rfl) (by rfl)
  exact h

/-- C9: every line whose trimmed text begins with `source` — wherever it
appears, even inside an open `iface` stanza, and even when the first
token merely starts with `source` such as `source-directory` — is
appended verbatim (trimmed) to the sources list and changes nothing else:
in particular it is never appended to any interface's options. -/
theorem C9_source_lines (st : PState) (n : Nat) (l : Str)
    (h : "source".data.isPrefixOf (trim l) = true) :
    step n l st = .ok { st with sources := st.sources ++ [trim l] } := by
  simp only [step]
  rw [hash_not_isPrefixOf _ h]
  simp only [Bool.false_eq_true, if_false, h, if_true]

/-- Witness for C9: an indented `source-directory` line inside an open
stanza lands in sources, leaving the directory and the open stanza
untouched. -/
theorem C9_source_lines_w :
    step 5 "    source-directory /etc/x".data
      ⟨[], some (newIface "eth0".data), [], []⟩ =
      .ok ⟨[], some (newIface "eth0".data), [],
           ["source-directory /etc/x".data]⟩ := by
  rw [C9_source_lines ⟨[], some (newIface "eth0".data), [], []⟩ 5
    "    source-directory /etc/x".data (by decide)]
  rfl

/-! ## The natural comparator: fuel and canonical-key theory -/

theorem char_isDigit_iff (c : Char) :
    c.isDigit = true ↔ 48 ≤ c.toNat ∧ c.toNat ≤ 57 := by
  simp only [Char.isDigit, Bool.and_eq_true, decide_eq_true_eq]
  unfold Char.toNat
  constructor
  · rintro ⟨h1, h2⟩
    exact ⟨h1, h2⟩
  · rintro ⟨h1, h2⟩
    exact ⟨h1, h2⟩

theorem char_toNat_inj (a b : Char) (h : a.toNat = b.toNat) : a = b := by
  unfold Char.toNat at h
  exact Char.ext (UInt32.ext h)

theorem length_dropWhile_le (p : Char → Bool) (l : Str) :
    (l.dropWhile p).length ≤ l.length := by
  induction l with
  | nil => simp
  | cons c cs ih =>
    by_cases hc : p c
    · simp [List.dropWhile, hc]
      omega
    · simp [List.dropWhile, hc]

theorem naturalGo_nil_nil (f : Nat) : naturalGo f [] [] = .eq := by
  cases f <;> rfl

theorem naturalGo_cons_eq (f : Nat) (a b : Char) (as bs : Str) :
    naturalGo (f + 1) (a :: as) (b :: bs) =
      if (a.isDigit && b.isDigit) = true then
        match compare (digitsToNat ((a :: as).takeWhile Char.isDigit))
                      (digitsToNat ((b :: bs).takeWhile Char.isDigit)) with
        | .eq => naturalGo f ((a :: as).dropWhile Char.isDigit)
                              ((b :: bs).dropWhile Char.isDigit)
        | o => o
      else
        match compare a.toNat b.toNat with
        | .eq => naturalGo f as bs
        | o => o := by
  rw [naturalGo]

theorem natural_cons_eq (a b : Char) (as bs : Str) :
    natural (a :: as) (b :: bs) =
      if (a.isDigit && b.isDigit) = true then
        match compare (digitsToNat ((a :: as).takeWhile Char.isDigit))
                      (digitsToNat ((b :: bs).takeWhile Char.isDigit)) with
        | .eq => naturalGo (as.length + 1 + bs.length)
                   ((a :: as).dropWhile Char.isDigit)
                   ((b :: bs).dropWhile Char.isDigit)
        | o => o
      else
        match compare a.toNat b.toNat with
        | .eq => naturalGo (as.length + 1 + bs.length) as bs
        | o => o := by
  have h1 : (a :: as).length + (b :: bs).length = (as.length + 1 + bs.length) + 1 := by
    simp [List.length_cons]
    omega
  unfold natural
  rw [h1, naturalGo_cons_eq]

theorem dropWhile_cons_digit (a : Char) (as : Str) (ha : a.isDigit = true) :
    (a :: as).dropWhile Char.isDigit = as.dropWhile Char.isDigit := by
  simp [List.dropWhile, ha]

set_option maxHeartbeats 1000000 in
theorem naturalGo_eq_natural (f : Nat) (a b : Str)
    (hf : a.length + b.length ≤ f) : naturalGo f a b = natural a b := by
  induction f using Nat.strong_induction_on generalizing a b with
  | _ f ih =>
    match a, b with
    | [], [] =>
      rw [naturalGo_nil_nil]
      rfl
    | c :: cs, [] =>
      match f, hf with
      | g + 1, _ => rfl
    | [], c :: cs =>
      match f, hf with
      | g + 1, _ => rfl
    | a :: as, b :: bs =>
      match f, hf with
      | g + 1, hf =>
        have hlen : (a :: as).length + (b :: bs).length =
            (as.length + 1 + bs.length) + 1 := by
          simp [List.length_cons]; omega
        rw [naturalGo_cons_eq, natural_cons_eq]
        have hg : as.length + 1 + bs.length ≤ g := by
          simp [List.length_cons] at hf
          omega
        by_cases hd : (a.isDigit && b.isDigit) = true
        · rw [if_pos hd, if_pos hd]
          have ha : a.isDigit = true := by
            rcases Bool.and_eq_true_iff.mp hd with ⟨h1, _⟩
            exact h1
          have hb : b.isDigit = true := by
            rcases Bool.and_eq_true_iff.mp hd with ⟨_, h2⟩
            exact h2
          have har : ((a :: as).dropWhile Char.isDigit).length ≤ as.length := by
            rw [dropWhile_cons_digit a as ha]
            exact length_dropWhile_le _ _
          have hbr : ((b :: bs).dropWhile Char.isDigit).length ≤ bs.length := by
            rw [dropWhile_cons_digit b bs hb]
            exact length_dropWhile_le _ _
          cases hcmp : compare (digitsToNat ((a :: as).takeWhile Char.isDigit))
              (digitsToNat ((b :: bs).takeWhile Char.isDigit)) with
          | eq =>
            rw [ih g (by omega) _ _ (by omega),
              ih (as.length + 1 + bs.length) (by omega) _ _ (by omega)]
          | lt => rfl
          | gt => rfl
        · rw [if_neg hd, if_neg hd]
          cases hcmp : compare a.toNat b.toNat with
          | eq =>
            have hab : as.length + bs.length ≤ g := by
              simp [List.length_cons] at hf
              omega
            rw [ih g (by omega) _ _ (by omega),
              ih (as.length + 1 + bs.length) (by omega) _ _ (by omega)]
          | lt => rfl
          | gt => rfl

theorem canonGo_cons_eq (f : Nat) (c : Char) (cs : Str) :
    canonGo (f + 1) (c :: cs) =
      if c.isDigit = true then
        (48, digitsToNat ((c :: cs).takeWhile Char.isDigit)) ::
          canonGo f ((c :: cs).dropWhile Char.isDigit)
      else (c.toNat, 0) :: canonGo f cs := by
  rw [canonGo]

theorem canonGo_nil (f : Nat) : canonGo f [] = [] := by
  cases f <;> rfl

theorem canonGo_eq_canon (f : Nat) (s : Str) (hf : s.length ≤ f) :
    canonGo f s = canon s := by
  induction f using Nat.strong_induction_on generalizing s with
  | _ f ih =>
    match s with
    | [] => rw [canonGo_nil]; rfl
    | c :: cs =>
      match f, hf with
      | g + 1, hf =>
        have hcl : (c :: cs).length = cs.length + 1 := by simp
        have hg : cs.length ≤ g := by rw [hcl] at hf; omega
        show canonGo (g + 1) (c :: cs) = canonGo (cs.length + 1) (c :: cs)
        rw [canonGo_cons_eq, canonGo_cons_eq]
        by_cases hc : c.isDigit = true
        · rw [if_pos hc, if_pos hc]
          have hdr : ((c :: cs).dropWhile Char.isDigit).length ≤ cs.length := by
            rw [dropWhile_cons_digit c cs hc]
            exact length_dropWhile_le _ _
          rw [ih g (by omega) _ (by omega),
            ih cs.length (by omega) _ (by omega)]
        · rw [if_neg hc, if_neg hc]
          rw [ih g (by omega) _ (by omega),
            ih cs.length (by omega) _ (by omega)]

theorem canon_cons_eq (c : Char) (cs : Str) :
    canon (c :: cs) =
      if c.isDigit = true then
        (48, digitsToNat ((c :: cs).takeWhile Char.isDigit)) ::
          canonGo cs.length ((c :: cs).dropWhile Char.isDigit)
      else (c.toNat, 0) :: canonGo cs.length cs := by
  show canonGo (cs.length + 1) (c :: cs) = _
  rw [canonGo_cons_eq]

theorem natCompare_swap (a b : Nat) : compare a b = (compare b a).swap := by
  rcases Nat.lt_trichotomy a b with h | h | h
  · rw [Nat.compare_eq_lt.mpr h, Nat.compare_eq_gt.mpr h]; rfl
  · subst h; rw [Nat.compare_eq_eq.mpr rfl]; rfl
  · rw [Nat.compare_eq_gt.mpr h, Nat.compare_eq_lt.mpr h]; rfl

theorem pairCmp_eq_iff (p q : Nat × Nat) : pairCmp p q = .eq ↔ p = q := by
  unfold pairCmp
  cases hc : compare p.1 q.1 with
  | eq =>
    have h1 : p.1 = q.1 := Nat.compare_eq_eq.mp hc
    constructor
    · intro h
      exact Prod.ext h1 (Nat.compare_eq_eq.mp h)
    · intro h
      subst h
      exact Nat.compare_eq_eq.mpr rfl
  | lt =>
    constructor
    · intro h; exact absurd h (by simp)
    · intro h; subst h; exact absurd (Nat.compare_eq_lt.mp hc) (lt_irrefl _)
  | gt =>
    constructor
    · intro h; exact absurd h (by simp)
    · intro h; subst h; exact absurd (Nat.compare_eq_gt.mp hc) (lt_irrefl _)

theorem pairCmp_swap (p q : Nat × Nat) : pairCmp p q = (pairCmp q p).swap := by
  unfold pairCmp
  rw [natCompare_swap p.1 q.1, natCompare_swap p.2 q.2]
  cases compare q.1 p.1 <;> rfl

theorem pairCmp_lt_iff (p q : Nat × Nat) :
    pairCmp p q = .lt ↔ p.1 < q.1 ∨ (p.1 = q.1 ∧ p.2 < q.2) := by
  unfold pairCmp
  cases hc : compare p.1 q.1 with
  | eq =>
    have h1 : p.1 = q.1 := Nat.compare_eq_eq.mp hc
    simp [h1, Nat.compare_eq_lt]
  | lt =>
    have h1 : p.1 < q.1 := Nat.compare_eq_lt.mp hc
    simp [h1]
  | gt =>
    have h1 : q.1 < p.1 := Nat.compare_eq_gt.mp hc
    constructor
    · intro h; exact absurd h (by simp)
    · intro h
      rcases h with h2 | ⟨h2, _⟩ <;> omega

theorem pairCmp_lt_trans (p q r : Nat × Nat) (h1 : pairCmp p q = .lt)
    (h2 : pairCmp q r = .lt) : pairCmp p r = .lt := by
  rw [pairCmp_lt_iff] at h1 h2 ⊢
  rcases h1 with h1 | ⟨h1a, h1b⟩ <;> rcases h2 with h2 | ⟨h2a, h2b⟩ <;> omega

theorem listCmp_eq_iff (cmp : α → α → Ordering)
    (heq : ∀ x y, cmp x y = .eq ↔ x = y) (l1 l2 : List α) :
    listCmp cmp l1 l2 = .eq ↔ l1 = l2 := by
  induction l1 generalizing l2 with
  | nil => cases l2 <;> simp [listCmp]
  | cons a as ih =>
    cases l2 with
    | nil => simp [listCmp]
    | cons b bs =>
      show (match cmp a b with
            | .eq => listCmp cmp as bs
            | o => o) = .eq ↔ _
      cases hc : cmp a b with
      | eq =>
        have hab := (heq a b).mp hc
        subst hab
        simp only [List.cons.injEq, true_and]
        exact ih bs
      | lt =>
        constructor
        · intro h; exact absurd h (by simp)
        · intro h
          injection h with h1 h2
          rw [(heq a b).mpr h1] at hc
          exact absurd hc (by simp)
      | gt =>
        constructor
        · intro h; exact absurd h (by simp)
        · intro h
          injection h with h1 h2
          rw [(heq a b).mpr h1] at hc
          exact absurd hc (by simp)

theorem listCmp_swap (cmp : α → α → Ordering)
    (hswap : ∀ x y, cmp x y = (cmp y x).swap) (l1 l2 : List α) :
    listCmp cmp l1 l2 = (listCmp cmp l2 l1).swap := by
  induction l1 generalizing l2 with
  | nil => cases l2 <;> rfl
  | cons a as ih =>
    cases l2 with
    | nil => rfl
    | cons b bs =>
      show (match cmp a b with
            | .eq => listCmp cmp as bs
            | o => o) =
        (match cmp b a with
         | .eq => listCmp cmp bs as
         | o => o).swap
      rw [hswap a b]
      cases cmp b a with
      | eq => exact ih bs
      | lt => rfl
      | gt => rfl

theorem listCmp_lt_trans (cmp : α → α → Ordering)
    (heq : ∀ x y, cmp x y = .eq ↔ x = y)
    (hlt : ∀ x y z, cmp x y = .lt → cmp y z = .lt → cmp x z = .lt) :
    ∀ l1 l2 l3 : List α, listCmp cmp l1 l2 = .lt → listCmp cmp l2 l3 = .lt →
      listCmp cmp l1 l3 = .lt := by
  intro l1
  induction l1 with
  | nil =>
    intro l2 l3 h1 h2
    cases l2 with
    | nil => exact h2
    | cons b bs =>
      cases l3 with
      | nil => exact absurd h2 (by simp [listCmp])
      | cons c cs => rfl
  | cons a as ih =>
    intro l2 l3 h1 h2
    cases l2 with
    | nil => exact absurd h1 (by simp [listCmp])
    | cons b bs =>
      cases l3 with
      | nil => exact absurd h2 (by simp [listCmp])
      | cons c cs =>
        have e1 : listCmp cmp (a :: as) (b :: bs) =
            match cmp a b with
            | .eq => listCmp cmp as bs
            | o => o := rfl
        have e2 : listCmp cmp (b :: bs) (c :: cs) =
            match cmp b c with
            | .eq => listCmp cmp bs cs
            | o => o := rfl
        have e3 : listCmp cmp (a :: as) (c :: cs) =
            match cmp a c with
            | .eq => listCmp cmp as cs
            | o => o := rfl
        rw [e1] at h1
        rw [e2] at h2
        rw [e3]
        cases hab : cmp a b with
        | gt => rw [hab] at h1; exact absurd h1 (by simp)
        | eq =>
          have := (heq a b).mp hab
          subst this
          rw [hab] at h1
          cases hbc : cmp a c with
          | eq =>
            have := (heq a c).mp hbc
            subst this
            rw [hbc] at h2
            exact ih bs cs h1 h2
          | lt => rfl
          | gt => rw [hbc] at h2; exact absurd h2 (by simp)
        | lt =>
          cases hbc : cmp b c with
          | eq =>
            have := (heq b c).mp hbc
            subst this
            rw [hab]
          | lt =>
            rw [hlt a b c hab hbc]
          | gt => rw [hbc] at h2; exact absurd h2 (by simp)

theorem listCmp_ne_gt_trans (cmp : α → α → Ordering)
    (heq : ∀ x y, cmp x y = .eq ↔ x = y)
    (hlt : ∀ x y z, cmp x y = .lt → cmp y z = .lt → cmp x z = .lt)
    (l1 l2 l3 : List α) (h1 : listCmp cmp l1 l2 ≠ .gt)
    (h2 : listCmp cmp l2 l3 ≠ .gt) : listCmp cmp l1 l3 ≠ .gt := by
  cases hc1 : listCmp cmp l1 l2 with
  | gt => exact absurd hc1 h1
  | eq =>
    have := (listCmp_eq_iff cmp heq l1 l2).mp hc1
    subst this
    exact h2
  | lt =>
    cases hc2 : listCmp cmp l2 l3 with
    | gt => exact absurd hc2 h2
    | eq =>
      have := (listCmp_eq_iff cmp heq l2 l3).mp hc2
      subst this
      rw [hc1]
      simp
    | lt =>
      rw [listCmp_lt_trans cmp heq hlt l1 l2 l3 hc1 hc2]
      simp

theorem takeWhile_cons_digit (a : Char) (as : Str) (ha : a.isDigit = true) :
    (a :: as).takeWhile Char.isDigit = a :: as.takeWhile Char.isDigit := by
  simp [List.takeWhile, ha]

theorem listCmp_cons (cmp : α → α → Ordering) (x y : α) (xs ys : List α) :
    listCmp cmp (x :: xs) (y :: ys) =
      match cmp x y with
      | .eq => listCmp cmp xs ys
      | o => o := rfl

set_option maxHeartbeats 2000000 in
theorem natural_eq_canon_aux : ∀ (n : Nat) (a b : Str),
    a.length + b.length ≤ n →
    natural a b = listCmp pairCmp (canon a) (canon b) := by
  intro n
  induction n with
  | zero =>
    intro a b h
    cases a with
    | cons c cs => exfalso; simp at h
    | nil =>
      cases b with
      | cons c cs => exfalso; simp at h
      | nil => rfl
  | succ m ih =>
    intro a b hn
    match a, b with
    | [], [] => rfl
    | c :: cs, [] =>
      show Ordering.gt = listCmp pairCmp (canon (c :: cs)) []
      rw [canon_cons_eq]
      by_cases hc : c.isDigit = true
      · rw [if_pos hc]; rfl
      · rw [if_neg hc]; rfl
    | [], c :: cs =>
      show Ordering.lt = listCmp pairCmp [] (canon (c :: cs))
      rw [canon_cons_eq]
      by_cases hc : c.isDigit = true
      · rw [if_pos hc]; rfl
      · rw [if_neg hc]; rfl
    | a :: as, b :: bs =>
      rw [natural_cons_eq, canon_cons_eq, canon_cons_eq]
      have hlena : (a :: as).length = as.length + 1 := by simp
      have hlenb : (b :: bs).length = bs.length + 1 := by simp
      by_cases ha : a.isDigit = true
      · by_cases hb : b.isDigit = true
        · -- both digit runs
          rw [if_pos (by rw [ha, hb]; rfl), if_pos ha, if_pos hb]
          have har : ((a :: as).dropWhile Char.isDigit).length ≤ as.length := by
            rw [dropWhile_cons_digit a as ha]
            exact length_dropWhile_le _ _
          have hbr : ((b :: bs).dropWhile Char.isDigit).length ≤ bs.length := by
            rw [dropWhile_cons_digit b bs hb]
            exact length_dropWhile_le _ _
          rw [listCmp_cons]
          have hpr : pairCmp
              (48, digitsToNat ((a :: as).takeWhile Char.isDigit))
              (48, digitsToNat ((b :: bs).takeWhile Char.isDigit)) =
              compare (digitsToNat ((a :: as).takeWhile Char.isDigit))
                (digitsToNat ((b :: bs).takeWhile Char.isDigit)) := by
            show (match compare 48 48 with
              | .eq => compare (digitsToNat ((a :: as).takeWhile Char.isDigit))
                  (digitsToNat ((b :: bs).takeWhile Char.isDigit))
              | o => o) = _
            rfl
          rw [hpr]
          cases hcmp : compare (digitsToNat ((a :: as).takeWhile Char.isDigit))
              (digitsToNat ((b :: bs).takeWhile Char.isDigit)) with
          | eq =>
            rw [naturalGo_eq_natural _ _ _ (by omega),
              canonGo_eq_canon as.length _ (by omega),
              canonGo_eq_canon bs.length _ (by omega)]
            exact ih _ _ (by rw [hlena, hlenb] at hn; omega)
          | lt => rfl
          | gt => rfl
        · -- a digit, b not
          rw [if_neg (by simp only [ha, Bool.true_and]; exact hb),
            if_pos ha, if_neg hb]
          obtain ⟨ha1, ha2⟩ := (char_isDigit_iff a).mp ha
          have hb2 : b.toNat < 48 ∨ 57 < b.toNat := by
            by_contra hcon
            push_neg at hcon
            exact hb ((char_isDigit_iff b).mpr ⟨by omega, by omega⟩)
          rw [listCmp_cons]
          have hp : pairCmp (48, digitsToNat ((a :: as).takeWhile Char.isDigit))
              (b.toNat, 0) = compare a.toNat b.toNat := by
            show (match compare 48 b.toNat with
              | .eq => compare (digitsToNat ((a :: as).takeWhile Char.isDigit)) 0
              | o => o) = _
            rcases hb2 with h1 | h1
            · rw [Nat.compare_eq_gt.mpr (by omega : b.toNat < 48),
                Nat.compare_eq_gt.mpr (by omega : b.toNat < a.toNat)]
            · rw [Nat.compare_eq_lt.mpr (by omega : (48:Nat) < b.toNat),
                Nat.compare_eq_lt.mpr (by omega : a.toNat < b.toNat)]
          rw [hp]
          cases hcmp : compare a.toNat b.toNat with
          | eq => exact absurd (Nat.compare_eq_eq.mp hcmp) (by omega)
          | lt => rfl
          | gt => rfl
      · by_cases hb : b.isDigit = true
        · -- b digit, a not
          rw [if_neg (by simp only [Bool.and_eq_true]; intro hcon; exact ha hcon.1),
            if_neg ha, if_pos hb]
          obtain ⟨hb1, hb2⟩ := (char_isDigit_iff b).mp hb
          have ha2 : a.toNat < 48 ∨ 57 < a.toNat := by
            by_contra hcon
            push_neg at hcon
            exact ha ((char_isDigit_iff a).mpr ⟨by omega, by omega⟩)
          rw [listCmp_cons]
          have hp : pairCmp (a.toNat, 0)
              (48, digitsToNat ((b :: bs).takeWhile Char.isDigit)) =
              compare a.toNat b.toNat := by
            show (match compare a.toNat 48 with
              | .eq => compare 0 (digitsToNat ((b :: bs).takeWhile Char.isDigit))
              | o => o) = _
            rcases ha2 with h1 | h1
            · rw [Nat.compare_eq_lt.mpr (by omega : a.toNat < 48),
                Nat.compare_eq_lt.mpr (by omega : a.toNat < b.toNat)]
            · rw [Nat.compare_eq_gt.mpr (by omega : (48:Nat) < a.toNat),
                Nat.compare_eq_gt.mpr (by omega : b.toNat < a.toNat)]
          rw [hp]
          cases hcmp : compare a.toNat b.toNat with
          | eq => exact absurd (Nat.compare_eq_eq.mp hcmp) (by omega)
          | lt => rfl
          | gt => rfl
        · -- neither digit
          rw [if_neg (by simp only [Bool.and_eq_true]; intro hcon; exact ha hcon.1),
            if_neg ha, if_neg hb]
          rw [listCmp_cons]
          have hp : pairCmp (a.toNat, 0) (b.toNat, 0) =
              match compare a.toNat b.toNat with
              | .eq => Ordering.eq
              | o => o := by
            show (match compare a.toNat b.toNat with
              | .eq => compare 0 0
              | o => o) = _
            cases compare a.toNat b.toNat <;> rfl
          rw [hp]
          cases hcmp : compare a.toNat b.toNat with
          | eq =>
            rw [naturalGo_eq_natural _ _ _ (by omega),
              canonGo_eq_canon as.length _ (le_refl _),
              canonGo_eq_canon bs.length _ (le_refl _)]
            exact ih _ _ (by rw [hlena, hlenb] at hn; omega)
          | lt => rfl
          | gt => rfl

theorem natural_eq_canon (a b : Str) :
    natural a b = listCmp pairCmp (canon a) (canon b) :=
  natural_eq_canon_aux (a.length + b.length) a b (le_refl _)

theorem natural_swap (a b : Str) : natural a b = (natural b a).swap := by
  rw [natural_eq_canon, natural_eq_canon]
  exact listCmp_swap pairCmp pairCmp_swap _ _

theorem natural_le_trans (a b c : Str) (h1 : natural a b ≠ .gt)
    (h2 : natural b c ≠ .gt) : natural a c ≠ .gt := by
  rw [natural_eq_canon] at h1 h2 ⊢
  exact listCmp_ne_gt_trans pairCmp pairCmp_eq_iff pairCmp_lt_trans _ _ _ h1 h2

theorem charCmp_eq_iff (c d : Char) : charCmp c d = .eq ↔ c = d := by
  unfold charCmp
  constructor
  · intro h
    exact char_toNat_inj c d (Nat.compare_eq_eq.mp h)
  · intro h
    subst h
    exact Nat.compare_eq_eq.mpr rfl

theorem charCmp_lt_trans (c d e : Char) (h1 : charCmp c d = .lt)
    (h2 : charCmp d e = .lt) : charCmp c e = .lt := by
  unfold charCmp at h1 h2 ⊢
  rw [Nat.compare_eq_lt] at h1 h2 ⊢
  omega

theorem strCmp_eq_listCmp (a b : Str) : strCmp a b = listCmp charCmp a b := by
  induction a generalizing b with
  | nil => cases b <;> rfl
  | cons x xs ih =>
    cases b with
    | nil => rfl
    | cons y ys =>
      show (match charCmp x y with
            | .eq => strCmp xs ys
            | o => o) =
        (match charCmp x y with
         | .eq => listCmp charCmp xs ys
         | o => o)
      cases charCmp x y with
      | eq => exact ih ys
      | lt => rfl
      | gt => rfl

theorem strCmp_swap (a b : Str) : strCmp a b = (strCmp b a).swap := by
  rw [strCmp_eq_listCmp, strCmp_eq_listCmp]
  exact listCmp_swap charCmp (fun x y => natCompare_swap x.toNat y.toNat) _ _

theorem strCmp_le_trans (a b c : Str) (h1 : strCmp a b ≠ .gt)
    (h2 : strCmp b c ≠ .gt) : strCmp a c ≠ .gt := by
  rw [strCmp_eq_listCmp] at h1 h2 ⊢
  exact listCmp_ne_gt_trans charCmp charCmp_eq_iff charCmp_lt_trans _ _ _ h1 h2

/-! ## Stable sorting lemmas -/

theorem insSorted_perm (cmp : α → α → Ordering) (x : α) (l : List α) :
    (insSorted cmp x l).Perm (x :: l) := by
  induction l with
  | nil => exact List.Perm.refl _
  | cons y ys ih =>
    unfold insSorted
    by_cases h : cmp x y = .gt
    · rw [if_pos h]
      exact (ih.cons y).trans (List.Perm.swap x y ys)
    · rw [if_neg h]

theorem stableSort_perm (cmp : α → α → Ordering) (l : List α) :
    (stableSort cmp l).Perm l := by
  induction l with
  | nil => exact List.Perm.refl _
  | cons x xs ih =>
    exact (insSorted_perm cmp x (stableSort cmp xs)).trans (ih.cons x)

theorem insSorted_sorted (cmp : α → α → Ordering)
    (hswap : ∀ x y, cmp x y = (cmp y x).swap)
    (htrans : ∀ x y z, cmp x y ≠ .gt → cmp y z ≠ .gt → cmp x z ≠ .gt)
    (x : α) (l : List α) (hl : l.Pairwise (cmpLe cmp)) :
    (insSorted cmp x l).Pairwise (cmpLe cmp) := by
  induction l with
  | nil => simp [insSorted, cmpLe]
  | cons y ys ih =>
    rcases List.pairwise_cons.mp hl with ⟨hy, hys⟩
    unfold insSorted
    by_cases h : cmp x y = .gt
    · rw [if_pos h]
      refine List.pairwise_cons.mpr ⟨?_, ih hys⟩
      intro z hz
      have hz' : z ∈ x :: ys := (insSorted_perm cmp x ys).mem_iff.mp hz
      rcases List.mem_cons.mp hz' with rfl | hzys
      · show cmp y z ≠ .gt
        rw [hswap y z, h]
        decide
      · exact hy z hzys
    · rw [if_neg h]
      refine List.pairwise_cons.mpr ⟨?_, hl⟩
      intro z hz
      rcases List.mem_cons.mp hz with rfl | hzys
      · exact h
      · exact htrans x y z h (hy z hzys)

theorem stableSort_sorted (cmp : α → α → Ordering)
    (hswap : ∀ x y, cmp x y = (cmp y x).swap)
    (htrans : ∀ x y z, cmp x y ≠ .gt → cmp y z ≠ .gt → cmp x z ≠ .gt)
    (l : List α) : (stableSort cmp l).Pairwise (cmpLe cmp) := by
  induction l with
  | nil => simp [stableSort]
  | cons x xs ih =>
    exact insSorted_sorted cmp hswap htrans x (stableSort cmp xs) ih

theorem stableSort_of_sorted (cmp : α → α → Ordering) (l : List α)
    (hl : l.Pairwise (cmpLe cmp)) : stableSort cmp l = l := by
  induction l with
  | nil => rfl
  | cons x xs ih =>
    rcases List.pairwise_cons.mp hl with ⟨hx, hxs⟩
    show insSorted cmp x (stableSort cmp xs) = x :: xs
    rw [ih hxs]
    cases xs with
    | nil => rfl
    | cons y ys =>
      unfold insSorted
      rw [if_neg (hx y (by simp))]

theorem sorted_unique (cmp : α → α → Ordering)
    (hswap : ∀ x y, cmp x y = (cmp y x).swap) :
    ∀ (l1 l2 : List α), l1.Perm l2 → l1.Pairwise (cmpLe cmp) →
      l2.Pairwise (cmpLe cmp) →
      (∀ x ∈ l1, ∀ y ∈ l1, cmp x y = .eq → x = y) → l1 = l2 := by
  intro l1
  induction l1 with
  | nil =>
    intro l2 hp _ _ _
    exact (List.Perm.eq_nil hp.symm).symm
  | cons a t1 ih =>
    intro l2 hp hs1 hs2 hanti
    cases l2 with
    | nil => exact absurd hp.eq_nil (by simp)
    | cons b t2 =>
      have hab : a = b := by
        by_cases heqab : a = b
        · exact heqab
        · have hain : a ∈ b :: t2 := hp.mem_iff.mp (by simp)
          have hbin : b ∈ a :: t1 := hp.mem_iff.mpr (by simp)
          have ha2 : a ∈ t2 := by
            rcases List.mem_cons.mp hain with h | h
            · exact absurd h heqab
            · exact h
          have hb1 : b ∈ t1 := by
            rcases List.mem_cons.mp hbin with h | h
            · exact absurd h.symm heqab
            · exact h
          have h1 : cmp a b ≠ .gt := (List.pairwise_cons.mp hs1).1 b hb1
          have h2 : cmp b a ≠ .gt := (List.pairwise_cons.mp hs2).1 a ha2
          have heq : cmp a b = .eq := by
            cases hcc : cmp a b with
            | eq => rfl
            | gt => exact absurd hcc h1
            | lt =>
              rw [hswap b a, hcc] at h2
              exact absurd rfl h2
          exact hanti a (by simp) b (by simp [hb1]) heq
      subst hab
      have ht : t1.Perm t2 := hp.cons_inv
      rw [ih t2 ht (List.pairwise_cons.mp hs1).2 (List.pairwise_cons.mp hs2).2
        (fun x hx y hy h => hanti x (by simp [hx]) y (by simp [hy]) h)]

set_option maxHeartbeats 1000000 in
/-- C5 (amended): rendering is deterministic on document contents
provided no two distinct interfaces have names the natural comparator
considers equal (names differing only by leading zeros in digit runs):
under that proviso, documents with identical contents render identically,
regardless of the internal order of the directory.  (Without the proviso
the stable display sort preserves the internal order of natural-equal
names, see the counterexample.) -/
theorem C5_render_deterministic (d1 d2 : NetworkInterfaces)
    (h : SameContents d1 d2)
    (hanti : ∀ i ∈ d1.interfaces.map Prod.snd,
      ∀ j ∈ d1.interfaces.map Prod.snd,
      natural i.name j.name = .eq → i = j) :
    d1.render = d2.render := by
  obtain ⟨hperm, hcom, hsrc⟩ := h
  unfold NetworkInterfaces.render allLines
  rw [hcom, hsrc]
  have hswap : ∀ x y : Interface, ifaceCmp x y = (ifaceCmp y x).swap :=
    fun x y => natural_swap x.name y.name
  have htrans : ∀ x y z : Interface, ifaceCmp x y ≠ .gt →
      ifaceCmp y z ≠ .gt → ifaceCmp x z ≠ .gt :=
    fun x y z h1 h2 => natural_le_trans x.name y.name z.name h1 h2
  have hs : sortedIfaces d1 = sortedIfaces d2 := by
    unfold sortedIfaces
    refine sorted_unique ifaceCmp hswap _ _ ?_ ?_ ?_ ?_
    · exact (stableSort_perm _ _).trans
        ((hperm.map Prod.snd).trans (stableSort_perm _ _).symm)
    · exact stableSort_sorted ifaceCmp hswap htrans _
    · exact stableSort_sorted ifaceCmp hswap htrans _
    · intro x hx y hy hxy
      exact hanti x ((stableSort_perm _ _).mem_iff.mp hx)
        y ((stableSort_perm _ _).mem_iff.mp hy) hxy
  rw [hs]

/-- Witness for the amended C5: two documents holding the same two
(naturally inequivalent) entries in opposite internal orders render the
same text. -/
theorem C5_render_deterministic_w :
    (⟨[("eth0".data, { newIface "eth0".data with auto := true }),
       ("lo".data, newIface "lo".data)], none, none, [], []⟩
      : NetworkInterfaces).render =
    (⟨[("lo".data, newIface "lo".data),
       ("eth0".data, { newIface "eth0".data with auto := true })],
      none, none, [], []⟩ : NetworkInterfaces).render :=
  C5_render_deterministic _ _
    ⟨List.Perm.swap _ _ _, rfl, rfl⟩ (by decide)

theorem dropWhile_head_false (p : Char → Bool) :
    ∀ (l : Str) (x : Char) (xs : Str), l.dropWhile p = x :: xs → p x = false := by
  intro l
  induction l with
  | nil => intro x xs h; simp at h
  | cons c cs ih =>
    intro x xs h
    by_cases hc : p c = true
    · rw [show (c :: cs).dropWhile p = cs.dropWhile p by simp [List.dropWhile, hc]] at h
      exact ih x xs h
    · have hc' : p c = false := Bool.not_eq_true _ |>.mp hc
      rw [show (c :: cs).dropWhile p = c :: cs by simp [List.dropWhile, hc']] at h
      cases h
      exact hc'

theorem takeWhile_append_stop (p : Char → Bool) (x : Char) (xs : Str)
    (hx : p x = false) :
    ∀ d : Str, (∀ c ∈ d, p c = true) →
      (d ++ x :: xs).takeWhile p = d ∧ (d ++ x :: xs).dropWhile p = x :: xs := by
  intro d
  induction d with
  | nil => intro _; simp [List.takeWhile, List.dropWhile, hx]
  | cons c cs ih =>
    intro hall
    have hc : p c = true := hall c (by simp)
    have hrest := ih (fun c hc => hall c (by simp [hc]))
    have h1 : ((c :: cs) ++ x :: xs).takeWhile p = c :: (cs ++ x :: xs).takeWhile p := by
      simp [List.takeWhile, hc]
    have h2 : ((c :: cs) ++ x :: xs).dropWhile p = (cs ++ x :: xs).dropWhile p := by
      simp [List.dropWhile, hc]
    rw [h1, h2, hrest.1, hrest.2]
    exact ⟨rfl, rfl⟩

theorem takeWhile_append_all (p : Char → Bool) (t : Str) :
    ∀ d : Str, (∀ c ∈ d, p c = true) →
      (d ++ t).takeWhile p = d ++ t.takeWhile p ∧
      (d ++ t).dropWhile p = t.dropWhile p := by
  intro d
  induction d with
  | nil => intro _; simp
  | cons c cs ih =>
    intro hall
    have hc : p c = true := hall c (by simp)
    have hrest := ih (fun c hc => hall c (by simp [hc]))
    have h1 : ((c :: cs) ++ t).takeWhile p = c :: (cs ++ t).takeWhile p := by
      simp [List.takeWhile, hc]
    have h2 : ((c :: cs) ++ t).dropWhile p = (cs ++ t).dropWhile p := by
      simp [List.dropWhile, hc]
    rw [h1, h2, hrest.1, hrest.2]
    exact ⟨rfl, rfl⟩

theorem foldl_digits_ge (ds : Str) : ∀ n : Nat,
    n ≤ List.foldl (fun n c => n * 10 + digitVal c) n ds := by
  induction ds with
  | nil => intro n; simp
  | cons c cs ih =>
    intro n
    have h1 : n ≤ n * 10 + digitVal c := by omega
    have h2 := ih (n * 10 + digitVal c)
    rw [List.foldl_cons]
    omega

theorem digitsToNat_prefix_le (d e : Str) :
    digitsToNat d ≤ digitsToNat (d ++ e) := by
  unfold digitsToNat
  rw [List.foldl_append]
  exact foldl_digits_ge e _

theorem natural_nil_ne_gt : ∀ t : Str, natural [] t ≠ .gt := by
  intro t
  cases t with
  | nil => decide
  | cons c cs =>
    have h : natural [] (c :: cs) = .lt := rfl
    rw [h]
    decide

set_option maxHeartbeats 1000000 in
theorem natural_prefix_aux (n : Nat) : ∀ (s t : Str), s.length ≤ n →
    natural s (s ++ t) ≠ .gt := by
  induction n using Nat.strong_induction_on with
  | _ n ih =>
    intro s t hlen
    match s with
    | [] => exact natural_nil_ne_gt t
    | a :: as =>
      rw [List.cons_append, natural_cons_eq]
      have hlt : as.length < n := by
        simp [List.length_cons] at hlen
        omega
      by_cases ha : a.isDigit = true
      · rw [if_pos (by rw [ha]; rfl)]
        have hsplit : (a :: as).takeWhile Char.isDigit ++
            (a :: as).dropWhile Char.isDigit = a :: as :=
          List.takeWhile_append_dropWhile _ _
        have hall : ∀ c ∈ (a :: as).takeWhile Char.isDigit, Char.isDigit c = true :=
          fun c hc => List.mem_takeWhile_imp hc
        cases hdw : (a :: as).dropWhile Char.isDigit with
        | cons x xs =>
          have hx : x.isDigit = false := dropWhile_head_false _ _ x xs hdw
          have hre : a :: (as ++ t) =
              (a :: as).takeWhile Char.isDigit ++ (x :: (xs ++ t)) := by
            show (a :: as) ++ t = _
            conv_lhs => rw [← hsplit, hdw]
            rw [List.append_assoc]
            rfl
          obtain ⟨hta, hda⟩ :=
            takeWhile_append_stop Char.isDigit x (xs ++ t) hx
              ((a :: as).takeWhile Char.isDigit) hall
          rw [hre, hta, hda]
          have hc : compare (digitsToNat ((a :: as).takeWhile Char.isDigit))
              (digitsToNat ((a :: as).takeWhile Char.isDigit)) = .eq :=
            Nat.compare_eq_eq.mpr rfl
          rw [hc]
          have hxl : (x :: xs).length ≤ as.length := by
            have h1 : as.dropWhile Char.isDigit = x :: xs := by
              rw [← dropWhile_cons_digit a as ha]
              exact hdw
            have h2 := length_dropWhile_le Char.isDigit as
            rw [h1] at h2
            exact h2
          show naturalGo (as.length + 1 + (as ++ t).length) (x :: xs) (x :: (xs ++ t)) ≠ .gt
          rw [naturalGo_eq_natural _ _ _ (by
            simp [List.length_cons, List.length_append] at hxl ⊢
            omega)]
          exact ih as.length hlt (x :: xs) t hxl
        | nil =>
          rw [hdw] at hsplit
          have hdall : (a :: as).takeWhile Char.isDigit = a :: as := by
            rw [List.append_nil] at hsplit
            exact hsplit
          rw [hdall] at hall
          have hre : a :: (as ++ t) = (a :: as) ++ t := rfl
          obtain ⟨hta, hda⟩ := takeWhile_append_all Char.isDigit t (a :: as) hall
          rw [hre, hta, hda, hdall]
          have hle : digitsToNat (a :: as) ≤
              digitsToNat ((a :: as) ++ t.takeWhile Char.isDigit) :=
            digitsToNat_prefix_le _ _
          cases hcmp : compare (digitsToNat (a :: as))
              (digitsToNat ((a :: as) ++ t.takeWhile Char.isDigit)) with
          | lt =>
            show Ordering.lt ≠ Ordering.gt
            decide
          | gt =>
            exact absurd (Nat.compare_eq_gt.mp hcmp) (Nat.not_lt.mpr hle)
          | eq =>
            show naturalGo (as.length + 1 + (as ++ t).length) []
              (t.dropWhile Char.isDigit) ≠ .gt
            rw [naturalGo_eq_natural _ _ _ (by
              have h1 := length_dropWhile_le Char.isDigit t
              simp [List.length_append]
              omega)]
            exact natural_nil_ne_gt _
      · rw [if_neg (by simp [ha])]
        have hself : compare a.toNat a.toNat = .eq := Nat.compare_eq_eq.mpr rfl
        rw [hself]
        show naturalGo (as.length + 1 + (as ++ t).length) as (as ++ t) ≠ .gt
        rw [naturalGo_eq_natural _ _ _ (by simp only [List.length_append]; omega)]
        exact ih as.length hlt as t (le_refl _)

set_option maxHeartbeats 1000000 in
/-- C8 (amended): the natural comparator compares maximal ASCII digit
runs as unsigned integers (leading zeros contribute nothing to the
value), compares other characters by code point, continues past an equal
segment on a tie, and the three quoted examples hold; but a strict
prefix does not always sort strictly before the longer string — it
merely never sorts after it (see the counterexample with `0` and
`00`). -/
theorem C8_natural_amended :
    (natural "swp2".data "swp10".data = .lt ∧
     natural "swp01".data "swp1".data = .eq ∧
     natural "eth0".data "swp0".data = .lt) ∧
    (∀ a b : Char, ∀ as bs : Str, (a.isDigit && b.isDigit) = true →
      natural (a :: as) (b :: bs) =
        match compare (digitsToNat ((a :: as).takeWhile Char.isDigit))
                      (digitsToNat ((b :: bs).takeWhile Char.isDigit)) with
        | .eq => natural ((a :: as).dropWhile Char.isDigit)
                         ((b :: bs).dropWhile Char.isDigit)
        | o => o) ∧
    (∀ ds : Str, digitsToNat ('0' :: ds) = digitsToNat ds) ∧
    (∀ a b : Char, ∀ as bs : Str, (a.isDigit && b.isDigit) = false →
      natural (a :: as) (b :: bs) =
        match compare a.toNat b.toNat with
        | .eq => natural as bs
        | o => o) ∧
    (∀ s t : Str, natural s (s ++ t) ≠ .gt) := by
  refine ⟨⟨by decide, by decide, by decide⟩, ?_, ?_, ?_, ?_⟩
  · intro a b as bs h
    obtain ⟨ha, hb⟩ := Bool.and_eq_true_iff.mp h
    rw [natural_cons_eq, if_pos h]
    cases hcmp : compare (digitsToNat ((a :: as).takeWhile Char.isDigit))
        (digitsToNat ((b :: bs).takeWhile Char.isDigit)) with
    | lt => rfl
    | gt => rfl
    | eq =>
      show naturalGo (as.length + 1 + bs.length) _ _ = _
      rw [dropWhile_cons_digit a as ha, dropWhile_cons_digit b bs hb]
      apply naturalGo_eq_natural
      have h1 := length_dropWhile_le Char.isDigit as
      have h2 := length_dropWhile_le Char.isDigit bs
      omega
  · intro ds
    show List.foldl _ (0 * 10 + digitVal '0') ds = List.foldl _ 0 ds
    have h : 0 * 10 + digitVal '0' = 0 := by decide
    rw [h]
  · intro a b as bs h
    rw [natural_cons_eq, if_neg (by simp [h])]
    cases hcmp : compare a.toNat b.toNat with
    | lt => rfl
    | gt => rfl
    | eq =>
      show naturalGo (as.length + 1 + bs.length) as bs = _
      apply naturalGo_eq_natural
      omega
  · intro s t
    exact natural_prefix_aux s.length s t (le_refl _)

/-- Witness for the amended C8: each conditional clause instantiated at
a concrete input with its hypothesis discharged. -/
theorem C8_natural_amended_w :
    (('1'.isDigit && '2'.isDigit) = true ∧
     natural ['1'] ['2'] =
       match compare (digitsToNat (['1'].takeWhile Char.isDigit))
                     (digitsToNat (['2'].takeWhile Char.isDigit)) with
       | .eq => natural (['1'].dropWhile Char.isDigit)
                        (['2'].dropWhile Char.isDigit)
       | o => o) ∧
    (('a'.isDigit && 'b'.isDigit) = false ∧
     natural ['a'] ['b'] =
       match compare 'a'.toNat 'b'.toNat with
       | .eq => natural ([] : Str) ([] : Str)
       | o => o) ∧
    natural "swp".data ("swp".data ++ "1".data) ≠ .gt :=
  ⟨⟨by decide, C8_natural_amended.2.1 '1' '2' [] [] (by decide)⟩,
   ⟨by decide, C8_natural_amended.2.2.2.1 'a' 'b' [] [] (by decide)⟩,
   C8_natural_amended.2.2.2.2 "swp".data "1".data⟩

/-! ## Canonical round trip (C4): directory lemmas -/

theorem getA_cons_ne (X k : Str) (v : Interface) (d : Dir) (h : k ≠ X) :
    getA X ((k, v) :: d) = getA X d := by simp [getA, h]

theorem getA_append_none (X : Str) (D E : Dir) (h : getA X D = none) :
    getA X (D ++ E) = getA X E := by
  induction D with
  | nil => rfl
  | cons p rest ih =>
    obtain ⟨k, v⟩ := p
    by_cases hk : k = X
    · subst hk
      rw [getA_cons_self] at h
      cases h
    · rw [show ((k, v) :: rest) ++ E = (k, v) :: (rest ++ E) from rfl,
        getA_cons_ne X k v _ hk]
      rw [getA_cons_ne X k v _ hk] at h
      exact ih h

theorem getA_single_ne (X k : Str) (v : Interface) (h : k ≠ X) :
    getA X [(k, v)] = none := by simp [getA, h]

theorem getA_append_one_self (X : Str) (D : Dir) (v : Interface)
    (h : getA X D = none) : getA X (D ++ [(X, v)]) = some v := by
  rw [getA_append_none X D _ h, getA_cons_self]

theorem insertA_fresh (X : Str) (v : Interface) (D : Dir)
    (h : getA X D = none) : insertA X v D = D ++ [(X, v)] := by
  induction D with
  | nil => rfl
  | cons p rest ih =>
    obtain ⟨k, w⟩ := p
    by_cases hk : k = X
    · subst hk
      rw [getA_cons_self] at h
      cases h
    · rw [getA_cons_ne X k w _ hk] at h
      show insertA X v ((k, w) :: rest) = _
      unfold insertA
      rw [if_neg hk, ih h]
      rfl

theorem updateA_append_one (X : Str) (f : Interface → Interface) (D : Dir)
    (v : Interface) (h : getA X D = none) :
    updateA X f (D ++ [(X, v)]) = D ++ [(X, f v)] := by
  induction D with
  | nil => simp [updateA]
  | cons p rest ih =>
    obtain ⟨k, w⟩ := p
    by_cases hk : k = X
    · subst hk
      rw [getA_cons_self] at h
      cases h
    · rw [getA_cons_ne X k w _ hk] at h
      show updateA X f ((k, w) :: (rest ++ [(X, v)])) = _
      unfold updateA
      rw [if_neg hk, ih h]
      rfl

theorem removeA_of_none (X : Str) (D : Dir) (h : getA X D = none) :
    removeA X D = D := by
  induction D with
  | nil => rfl
  | cons p rest ih =>
    obtain ⟨k, w⟩ := p
    by_cases hk : k = X
    · subst hk
      rw [getA_cons_self] at h
      cases h
    · rw [getA_cons_ne X k w _ hk] at h
      unfold removeA
      rw [if_neg hk, ih h]

theorem removeA_append_one (X : Str) (D : Dir) (v : Interface)
    (h : getA X D = none) : removeA X (D ++ [(X, v)]) = D := by
  induction D with
  | nil => simp [removeA]
  | cons p rest ih =>
    obtain ⟨k, w⟩ := p
    by_cases hk : k = X
    · subst hk
      rw [getA_cons_self] at h
      cases h
    · rw [getA_cons_ne X k w _ hk] at h
      show removeA X ((k, w) :: (rest ++ [(X, v)])) = _
      unfold removeA
      rw [if_neg hk, ih h]

theorem autoOne_fresh (X : Str) (D : Dir) (h : getA X D = none) :
    autoOne D X = D ++ [(X, ⟨X, true, [], none, none, [], none⟩)] := by
  unfold autoOne
  rw [h]
  rfl

theorem allowOne_fresh (t X : Str) (D : Dir) (h : getA X D = none) :
    allowOne t D X = D ++ [(X, ⟨X, false, [t], none, none, [], none⟩)] := by
  unfold allowOne
  rw [h]
  rfl

theorem allowOne_entry (t X : Str) (D : Dir) (v : Interface)
    (h : getA X D = none) :
    allowOne t (D ++ [(X, v)]) X =
      D ++ [(X, { v with allow := v.allow ++ [t] })] := by
  unfold allowOne
  rw [getA_append_one_self X D v h, updateA_append_one X _ D v h]

theorem allow_foldl (X : Str) (D : Dir) (h : getA X D = none) :
    ∀ (ts : List Str) (v : Interface),
      ts.foldl (fun d t => allowOne t d X) (D ++ [(X, v)]) =
        D ++ [(X, { v with allow := v.allow ++ ts })] := by
  intro ts
  induction ts with
  | nil =>
    intro v
    simp
  | cons t ts ih =>
    intro v
    rw [List.foldl_cons, allowOne_entry t X D v h, ih]
    simp [List.append_assoc]

/-! ## Canonical round trip (C4): header round-trip lemmas -/

theorem famRender_fromStr (f : Family) : Family.fromStr f.render = some f := by
  cases f <;> rfl

theorem famRender_token (f : Family) : IsToken f.render := by
  cases f <;> decide

theorem headerArgs_tokens (i : Interface) (hm : MethodRT i.method) :
    ∀ t ∈ headerArgs i, IsToken t := by
  intro t ht
  unfold headerArgs at ht
  rcases List.mem_append.mp ht with h1 | h2
  · cases hf : i.family with
    | some f =>
      rw [hf] at h1
      simp at h1
      subst h1
      exact famRender_token f
    | none =>
      rw [hf] at h1
      simp at h1
  · cases hmm : i.method with
    | some m =>
      rw [hmm] at h2
      simp at h2
      subst h2
      rw [hmm] at hm
      exact hm.1
    | none =>
      rw [hmm] at h2
      simp at h2

theorem famOf_headerArgs (i : Interface) (hfm : FamMethRT i.family i.method) :
    famOf (headerArgs i) = i.family := by
  unfold headerArgs
  cases hf : i.family with
  | some f =>
    show famOf ([f.render] ++ _) = some f
    show Family.fromStr f.render = some f
    exact famRender_fromStr f
  | none =>
    cases hmm : i.method with
    | none => rfl
    | some m =>
      rw [hf, hmm] at hfm
      unfold FamMethRT at hfm
      show famOf [m.render] = none
      show Family.fromStr m.render = none
      exact hfm

theorem methOf_headerArgs (i : Interface) (hm : MethodRT i.method)
    (hfm : FamMethRT i.family i.method) :
    methOf (headerArgs i) = i.method := by
  unfold headerArgs
  cases hf : i.family with
  | some f =>
    cases hmm : i.method with
    | some m =>
      rw [hmm] at hm
      unfold MethodRT at hm
      show methOf [f.render, m.render] = some m
      have hfam : famOf [f.render, m.render] = some f := famRender_fromStr f
      unfold methOf
      rw [hfam]
      simp [hm.2]
    | none =>
      show methOf [f.render] = none
      have hfam : famOf [f.render] = some f := famRender_fromStr f
      unfold methOf
      rw [hfam]
      simp
  | none =>
    cases hmm : i.method with
    | some m =>
      rw [hmm] at hm
      unfold MethodRT at hm
      rw [hf, hmm] at hfm
      unfold FamMethRT at hfm
      show methOf [m.render] = some m
      have hfam : famOf [m.render] = none := hfm
      unfold methOf
      rw [hfam]
      simp [hm.2]
    | none => rfl

theorem applyIfaceArgs_header (i : Interface) (hm : MethodRT i.method)
    (hfm : FamMethRT i.family i.method) :
    applyIfaceArgs ⟨i.name, i.auto, i.allow, none, none, [], none⟩
        (headerArgs i) =
      ⟨i.name, i.auto, i.allow, i.family, i.method, [], none⟩ := by
  rw [applyIfaceArgs_none _ _ rfl rfl, famOf_headerArgs i hfm,
    methOf_headerArgs i hm hfm]

theorem ifaceHeader_eq (i : Interface) :
    ifaceHeader i = ifaceArgsLine i.name (headerArgs i) := rfl

/-! ## Canonical round trip (C4): step and run lemmas for rendered lines -/

theorem trim_last_not_ws (s : Str) (x : Char)
    (h : (trim s).getLast? = some x) : isWs x = false := by
  unfold trim trimRight at h
  rw [List.getLast?_eq_head?_reverse, List.reverse_reverse] at h
  cases hdw : (s.dropWhile isWs).reverse.dropWhile isWs with
  | nil => rw [hdw] at h; simp at h
  | cons y ys =>
    rw [hdw] at h
    simp only [List.head?_cons, Option.some_inj] at h
    subst h
    exact dropWhile_head_false isWs _ _ _ hdw

theorem step_blank (n : Nat) (st : PState) : step n [] st = .ok st := rfl

theorem step_comment (n : Nat) (c : Str)
    (hpre : "#".data.isPrefixOf c = true) (htr : trim c = c)
    (cms srcs : List Str) :
    step n c ⟨[], none, cms, srcs⟩ = .ok ⟨[], none, cms ++ [c], srcs⟩ := by
  simp only [step, htr, hpre, if_true]
  rfl

theorem run_comments (k : Nat) (cs : List Str)
    (hcs : ∀ c ∈ cs, "#".data.isPrefixOf c = true ∧ trim c = c)
    (acc srcs : List Str) :
    run (withNums k cs) ⟨[], none, acc, srcs⟩ =
      .ok ⟨[], none, acc ++ cs, srcs⟩ := by
  induction cs generalizing k acc with
  | nil => simp [withNums, run]
  | cons c rest ih =>
    rw [withNums_cons, run_cons _ _ _ _ _
      (step_comment k c (hcs c (by simp)).1 (hcs c (by simp)).2 acc srcs)]
    rw [ih (k + 1) (fun x hx => hcs x (by simp [hx])) (acc ++ [c])]
    simp [List.append_assoc]

theorem step_source_any (n : Nat) (l : Str)
    (h : "source".data.isPrefixOf (trim l) = true) (st : PState) :
    step n l st = .ok { st with sources := st.sources ++ [trim l] } := by
  simp only [step]
  rw [hash_not_isPrefixOf _ h]
  simp only [Bool.false_eq_true, if_false, h, if_true]

theorem run_sources (k : Nat) (ss : List Str)
    (hss : ∀ s ∈ ss, "source".data.isPrefixOf s = true ∧ trim s = s)
    (st : PState) :
    run (withNums k ss) st = .ok { st with sources := st.sources ++ ss } := by
  induction ss generalizing k st with
  | nil =>
    obtain ⟨a, b, c, d⟩ := st
    simp [withNums, run]
  | cons s rest ih =>
    have h2 := (hss s (by simp)).2
    have hstep := step_source_any k s (by rw [h2]; exact (hss s (by simp)).1) st
    rw [h2] at hstep
    rw [withNums_cons, run_cons _ _ _ _ _ hstep]
    rw [ih (k + 1) (fun x hx => hss x (by simp [hx]))]
    simp [List.append_assoc]

theorem step_allowLine (n : Nat) (t X : Str) (hX : IsToken X)
    (ht : ∀ c ∈ t, isWs c = false) (st : PState) :
    step n (allowLine t X) st =
      .ok ⟨allowOne t (flushDir st) X, none, st.comments, st.sources⟩ := by
  have htok : IsToken ("allow-".data ++ t) := by
    refine ⟨by simp, ?_⟩
    intro c hc
    rcases List.mem_append.mp hc with h1 | h2
    · exact (by decide : ∀ c ∈ ("allow-".data : Str), isWs c = false) c h1
    · exact ht c h2
  have htoks : ∀ u ∈ ["allow-".data ++ t, X], IsToken u := by
    intro u hu
    rcases List.mem_cons.mp hu with h1 | h2
    · subst h1; exact htok
    · rcases List.mem_cons.mp h2 with h3 | h4
      · subst h3; exact hX
      · simp at h4
  have hline : trim (allowLine t X) = joinSp (("allow-".data ++ t) :: [X]) :=
    trim_joinSp _ htoks (by simp)
  rw [step_content n _ st ("allow-".data ++ t) [X] hline htoks rfl rfl]
  rw [stepTokens_allow]
  rfl

theorem run_allowList (k : Nat) (X : Str) (hX : IsToken X) (ts : List Str)
    (hts : ∀ t ∈ ts, ∀ c ∈ t, isWs c = false) (st : PState)
    (hcur : st.current = none) :
    run (withNums k (ts.map (fun t => allowLine t X))) st =
      .ok ⟨ts.foldl (fun d t => allowOne t d X) st.interfaces, none,
           st.comments, st.sources⟩ := by
  induction ts generalizing k st with
  | nil =>
    obtain ⟨ifs, cur, cms, srcs⟩ := st
    simp only at hcur
    subst hcur
    rfl
  | cons t ts ih =>
    have hflush : flushDir st = st.interfaces := by
      unfold flushDir
      rw [hcur]
    show run ((k, allowLine t X) :: withNums (k + 1) (ts.map _)) st = _
    rw [run_cons _ _ _ _ _ (step_allowLine k t X hX (hts t (by simp)) st),
      hflush]
    rw [ih (k + 1) (fun u hu => hts u (by simp [hu]))
      ⟨allowOne t st.interfaces X, none, st.comments, st.sources⟩ rfl]
    rfl

theorem dropWhile_stop (p : Char → Bool) (c : Char) (s : Str)
    (hc : p c = false) : (c :: s).dropWhile p = c :: s := by
  simp [List.dropWhile, hc]

theorem trim_token_sp (k : Str) (hk : IsToken k) :
    trim (k ++ [' ']) = k := by
  obtain ⟨hk0, hkw⟩ := hk
  cases k with
  | nil => exact absurd rfl hk0
  | cons c cs =>
    unfold trim
    rw [show ((c :: cs) ++ [' ']).dropWhile isWs = (c :: cs) ++ [' '] from by
      show (c :: (cs ++ [' '])).dropWhile isWs = c :: (cs ++ [' '])
      exact dropWhile_stop isWs c _ (hkw c (by simp))]
    unfold trimRight
    rw [show ((c :: cs) ++ [' ']).reverse = ' ' :: (c :: cs).reverse from by simp]
    rw [show (' ' :: (c :: cs).reverse).dropWhile isWs =
        (c :: cs).reverse.dropWhile isWs from by
      simp [List.dropWhile, isWs]]
    rw [show (c :: cs).reverse.dropWhile isWs = (c :: cs).reverse from by
      cases hrev : (c :: cs).reverse with
      | nil => rfl
      | cons d ds =>
        have hd : d ∈ (c :: cs).reverse := by rw [hrev]; simp
        exact dropWhile_stop isWs d ds (hkw d (List.mem_reverse.mp hd))]
    exact List.reverse_reverse _

theorem trim_optRendered (o : Str × Str) (ho : WFOpt o) :
    trim (optRendered o) = joinSp (o.1 :: splitWs o.2) := by
  obtain ⟨hk, hna, hni, hnm, hnal, hns, hnh, hnv⟩ := ho
  unfold optRendered
  rw [show "    ".data ++ o.1 ++ ' ' :: o.2 =
    "    ".data ++ (o.1 ++ ' ' :: o.2) from by simp [List.append_assoc]]
  rw [trim_ws_append "    ".data _ (by decide)]
  cases hsw : splitWs o.2 with
  | nil =>
    have hv : o.2 = [] := by
      have h := hnv
      unfold NormalValue at h
      rw [hsw] at h
      exact h.symm
    rw [hv]
    rw [show joinSp [o.1] = o.1 from by simp [joinSp]]
    exact trim_token_sp o.1 hk
  | cons v vs =>
    have hterm : o.1 ++ ' ' :: o.2 = joinSp (o.1 :: v :: vs) := by
      rw [show joinSp (o.1 :: v :: vs) = o.1 ++ ' ' :: joinSp (v :: vs) from by
        simp [joinSp]]
      rw [show (v :: vs) = splitWs o.2 from hsw.symm, hnv]
    rw [hterm]
    refine trim_joinSp _ ?_ (by simp)
    intro u hu
    rcases List.mem_cons.mp hu with h1 | h2
    · subst h1; exact hk
    · rw [show (v :: vs) = splitWs o.2 from hsw.symm] at h2
      exact splitWs_tokens o.2 u h2

theorem step_optRendered (n : Nat) (o : Str × Str) (ho : WFOpt o)
    (st : PState) (i : Interface) (hcur : st.current = some i) :
    step n (optRendered o) st =
      .ok { st with
            current := some { i with options := i.options ++ [o] } } := by
  obtain ⟨hk, hna, hni, hnm, hnal, hns, hnh, hnv⟩ := ho
  have htoks : ∀ t ∈ o.1 :: splitWs o.2, IsToken t := by
    intro t ht
    rcases List.mem_cons.mp ht with h1 | h2
    · subst h1; exact hk
    · exact splitWs_tokens o.2 t h2
  rw [step_content n _ st o.1 (splitWs o.2)
    (trim_optRendered o ⟨hk, hna, hni, hnm, hnal, hns, hnh, hnv⟩)
    htoks hnh hns]
  rw [stepTokens_opt n _ _ st hna hnal hni hnm]
  rw [hcur]
  show Except.ok _ = _
  rw [show joinSp (splitWs o.2) = o.2 from hnv]

theorem run_optRendered (k : Nat) (os : List (Str × Str))
    (hos : ∀ o ∈ os, WFOpt o) (st : PState) (i : Interface)
    (hcur : st.current = some i) :
    run (withNums k (os.map optRendered)) st =
      .ok { st with current := some { i with options := i.options ++ os } } := by
  induction os generalizing k st i with
  | nil =>
    obtain ⟨ifs, cur, cms, srcs⟩ := st
    simp only at hcur
    subst hcur
    simp only [List.map_nil, List.append_nil]
    rfl
  | cons o os ih =>
    show run ((k, optRendered o) :: withNums (k + 1) (os.map optRendered)) st = _
    rw [run_cons _ _ _ _ _ (step_optRendered k o (hos o (by simp)) st i hcur)]
    rw [ih (k + 1) (fun x hx => hos x (by simp [hx]))
      { st with current := some { i with options := i.options ++ [o] } }
      { i with options := i.options ++ [o] } rfl]
    simp [List.append_assoc]

set_option maxHeartbeats 1000000 in
theorem run_headerTail (k : Nat) (i : Interface) (st : PState)
    (hname : IsToken i.name) (hmrt : MethodRT i.method)
    (hfmrt : FamMethRT i.family i.method)
    (hopts : ∀ o ∈ i.options, WFOpt o) (hmap : i.mapping = none)
    (hbase : ifaceBase i.name (flushDir st) =
      ⟨i.name, i.auto, i.allow, none, none, [], none⟩) :
    run (withNums k
        (ifaceHeader i :: (stableSort optCmp i.options).map optRendered)) st =
      .ok ⟨removeA i.name (flushDir st), some (reparseI i),
           st.comments, st.sources⟩ := by
  rw [withNums_cons, ifaceHeader_eq]
  rw [run_cons _ _ _ _ _ (step_ifaceArgsLine k i.name (headerArgs i) hname
    (headerArgs_tokens i hmrt) st)]
  rw [run_optRendered (k + 1) (stableSort optCmp i.options)
    (fun o ho => hopts o ((stableSort_perm _ _).mem_iff.mp ho)) _
    (applyIfaceArgs (ifaceBase i.name (flushDir st)) (headerArgs i)) rfl]
  rw [hbase, applyIfaceArgs_header i hmrt hfmrt]
  show Except.ok (⟨removeA i.name (flushDir st),
    some (⟨i.name, i.auto, i.allow, i.family, i.method,
          stableSort optCmp i.options, none⟩ : Interface),
    st.comments, st.sources⟩ : PState) = _
  show _ = Except.ok (⟨removeA i.name (flushDir st),
    some (⟨i.name, i.auto, i.allow, i.family, i.method,
          stableSort optCmp i.options, i.mapping⟩ : Interface),
    st.comments, st.sources⟩ : PState)
  rw [hmap]

theorem ifaceBase_append_one (X : Str) (D : Dir) (v : Interface)
    (h : getA X D = none) : ifaceBase X (D ++ [(X, v)]) = v := by
  unfold ifaceBase
  rw [getA_append_one_self X D v h]

theorem ifaceBase_of_none (X : Str) (D : Dir) (h : getA X D = none) :
    ifaceBase X D = newIface X := by
  unfold ifaceBase
  rw [h]

set_option maxHeartbeats 2000000 in
theorem run_oneBlock (k : Nat) (i : Interface) (st : PState)
    (hwf : WFIface i) (hfresh : getA i.name (flushDir st) = none) :
    run (withNums k ([] :: stanzaLines i)) st =
      .ok ⟨flushDir st, some (reparseI i), st.comments, st.sources⟩ := by
  obtain ⟨hname, hallow, hmrt, hfmrt, hopts, hmap⟩ := hwf
  obtain ⟨nm, au, al, fa, me, op, mp⟩ := i
  have hmap' : mp = none := hmap
  subst hmap'
  rw [withNums_cons, run_cons _ _ _ _ _ (step_blank k st)]
  have hsl : stanzaLines ⟨nm, au, al, fa, me, op, none⟩ =
      (if au then [autoLine nm] else []) ++
      (al.map (fun t => allowLine t nm) ++
       (ifaceHeader ⟨nm, au, al, fa, me, op, none⟩ ::
        (stableSort optCmp op).map optRendered)) := by
    show ((((if au then [autoLine nm] else []) ++
        al.map (fun t => allowLine t nm)) ++ []) ++
        [ifaceHeader ⟨nm, au, al, fa, me, op, none⟩]) ++
        (stableSort optCmp op).map optRendered = _
    rw [List.append_nil, List.append_assoc, List.append_assoc,
      List.singleton_append]
  rw [hsl]
  cases au with
  | true =>
    show run (withNums (k + 1) (autoLine nm ::
      (al.map (fun t => allowLine t nm) ++
       (ifaceHeader ⟨nm, true, al, fa, me, op, none⟩ ::
        (stableSort optCmp op).map optRendered)))) st = _
    rw [withNums_cons, run_cons _ _ _ _ _ (step_autoLine (k + 1) nm hname st)]
    rw [autoOne_fresh nm (flushDir st) hfresh]
    rw [withNums_append]
    have hrunA := run_allowList (k + 1 + 1) nm hname al hallow
      ⟨flushDir st ++ [(nm, (⟨nm, true, [], none, none, [], none⟩ : Interface))],
       none, st.comments, st.sources⟩ rfl
    rw [run_append_ok _ _ _ _ hrunA]
    rw [allow_foldl nm (flushDir st) hfresh al]
    show run (withNums (k + 1 + 1 + (al.map (fun t => allowLine t nm)).length)
        (ifaceHeader ⟨nm, true, al, fa, me, op, none⟩ ::
         (stableSort optCmp op).map optRendered))
      (⟨flushDir st ++ [(nm, (⟨nm, true, al, none, none, [], none⟩ : Interface))],
        none, st.comments, st.sources⟩ : PState) = _
    have hbase : ifaceBase nm (flushDir
        (⟨flushDir st ++
          [(nm, (⟨nm, true, al, none, none, [], none⟩ : Interface))],
          none, st.comments, st.sources⟩ : PState)) =
        (⟨nm, true, al, none, none, [], none⟩ : Interface) :=
      ifaceBase_append_one nm (flushDir st) _ hfresh
    rw [run_headerTail (k + 1 + 1 + (al.map (fun t => allowLine t nm)).length)
      ⟨nm, true, al, fa, me, op, none⟩
      ⟨flushDir st ++ [(nm, (⟨nm, true, al, none, none, [], none⟩ : Interface))],
        none, st.comments, st.sources⟩ hname hmrt hfmrt hopts rfl hbase]
    have hrem : removeA nm (flushDir
        (⟨flushDir st ++
          [(nm, (⟨nm, true, al, none, none, [], none⟩ : Interface))],
          none, st.comments, st.sources⟩ : PState)) = flushDir st :=
      removeA_append_one nm (flushDir st) _ hfresh
    rw [hrem]
  | false =>
    show run (withNums (k + 1)
      (al.map (fun t => allowLine t nm) ++
       (ifaceHeader ⟨nm, false, al, fa, me, op, none⟩ ::
        (stableSort optCmp op).map optRendered))) st = _
    cases al with
    | nil =>
      show run (withNums (k + 1)
        (ifaceHeader ⟨nm, false, [], fa, me, op, none⟩ ::
         (stableSort optCmp op).map optRendered)) st = _
      have hbase : ifaceBase nm (flushDir st) =
          (⟨nm, false, [], none, none, [], none⟩ : Interface) :=
        ifaceBase_of_none nm (flushDir st) hfresh
      rw [run_headerTail (k + 1) ⟨nm, false, [], fa, me, op, none⟩ st
        hname hmrt hfmrt hopts rfl hbase]
      rw [removeA_of_none nm (flushDir st) hfresh]
    | cons t ts =>
      show run (withNums (k + 1) (allowLine t nm ::
        (ts.map (fun u => allowLine u nm) ++
         (ifaceHeader ⟨nm, false, t :: ts, fa, me, op, none⟩ ::
          (stableSort optCmp op).map optRendered)))) st = _
      rw [withNums_cons, run_cons _ _ _ _ _ (step_allowLine (k + 1) t nm hname
        (hallow t (List.mem_cons_self t ts)) st)]
      rw [allowOne_fresh t nm (flushDir st) hfresh]
      rw [withNums_append]
      have hrunA := run_allowList (k + 1 + 1) nm hname ts
        (fun u hu => hallow u (List.mem_cons_of_mem t hu))
        ⟨flushDir st ++ [(nm, (⟨nm, false, [t], none, none, [], none⟩ : Interface))],
         none, st.comments, st.sources⟩ rfl
      rw [run_append_ok _ _ _ _ hrunA]
      rw [allow_foldl nm (flushDir st) hfresh ts]
      show run (withNums (k + 1 + 1 + (ts.map (fun u => allowLine u nm)).length)
          (ifaceHeader ⟨nm, false, t :: ts, fa, me, op, none⟩ ::
           (stableSort optCmp op).map optRendered))
        (⟨flushDir st ++
          [(nm, (⟨nm, false, t :: ts, none, none, [], none⟩ : Interface))],
          none, st.comments, st.sources⟩ : PState) = _
      have hbase : ifaceBase nm (flushDir
          (⟨flushDir st ++
            [(nm, (⟨nm, false, t :: ts, none, none, [], none⟩ : Interface))],
            none, st.comments, st.sources⟩ : PState)) =
          (⟨nm, false, t :: ts, none, none, [], none⟩ : Interface) :=
        ifaceBase_append_one nm (flushDir st) _ hfresh
      rw [run_headerTail (k + 1 + 1 + (ts.map (fun u => allowLine u nm)).length)
        ⟨nm, false, t :: ts, fa, me, op, none⟩
        ⟨flushDir st ++
          [(nm, (⟨nm, false, t :: ts, none, none, [], none⟩ : Interface))],
          none, st.comments, st.sources⟩ hname hmrt hfmrt hopts rfl hbase]
      have hrem : removeA nm (flushDir
          (⟨flushDir st ++
            [(nm, (⟨nm, false, t :: ts, none, none, [], none⟩ : Interface))],
            none, st.comments, st.sources⟩ : PState)) = flushDir st :=
        removeA_append_one nm (flushDir st) _ hfresh
      rw [hrem]

set_option maxHeartbeats 1000000 in
theorem run_blocks (k : Nat) (li : List Interface) (st : PState)
    (hwf : ∀ i ∈ li, WFIface i)
    (hfresh : ∀ i ∈ li, getA i.name (flushDir st) = none)
    (hnd : (li.map Interface.name).Nodup) :
    ∃ st' : PState,
      run (withNums k ((li.map (fun j => [] :: stanzaLines j)).flatten)) st =
        .ok st' ∧
      flushDir st' = flushDir st ++ reparseDir li ∧
      st'.comments = st.comments ∧ st'.sources = st.sources := by
  induction li generalizing k st with
  | nil =>
    exact ⟨st, rfl, by simp [reparseDir], rfl, rfl⟩
  | cons i rest ih =>
    rw [show ((i :: rest).map (fun j => [] :: stanzaLines j)).flatten =
      ([] :: stanzaLines i) ++ ((rest.map (fun j => [] :: stanzaLines j)).flatten)
      from by simp]
    rw [withNums_append]
    rw [run_append_ok _ _ _ _
      (run_oneBlock k i st (hwf i (by simp)) (hfresh i (by simp)))]
    have hfd1 : flushDir
        (⟨flushDir st, some (reparseI i), st.comments, st.sources⟩ : PState) =
        flushDir st ++ [(i.name, reparseI i)] := by
      show insertA (reparseI i).name (reparseI i) (flushDir st) = _
      exact insertA_fresh i.name (reparseI i) (flushDir st) (hfresh i (by simp))
    obtain ⟨st', hrun, hfd, hcm, hsr⟩ :=
      ih (k + ([] :: stanzaLines i).length)
        ⟨flushDir st, some (reparseI i), st.comments, st.sources⟩
        (fun j hj => hwf j (by simp [hj]))
        (fun j hj => by
          rw [hfd1,
            getA_append_none j.name (flushDir st) _ (hfresh j (by simp [hj]))]
          refine getA_single_ne j.name i.name (reparseI i) ?_
          intro he
          have hmem : i.name ∈ rest.map Interface.name := by
            rw [he]
            exact List.mem_map_of_mem Interface.name hj
          exact (List.nodup_cons.mp hnd).1 hmem)
        ((List.nodup_cons.mp hnd).2)
    refine ⟨st', hrun, ?_, hcm.trans rfl, hsr.trans rfl⟩
    rw [hfd, hfd1, List.append_assoc]
    rfl

theorem optCmp_swap (a b : Str × Str) : optCmp a b = (optCmp b a).swap :=
  strCmp_swap a.1 b.1

theorem optCmp_le_trans (a b c : Str × Str) (h1 : optCmp a b ≠ .gt)
    (h2 : optCmp b c ≠ .gt) : optCmp a c ≠ .gt :=
  strCmp_le_trans a.1 b.1 c.1 h1 h2

theorem sortOpts_idem (os : List (Str × Str)) :
    stableSort optCmp (stableSort optCmp os) = stableSort optCmp os :=
  stableSort_of_sorted optCmp (stableSort optCmp os)
    (stableSort_sorted optCmp optCmp_swap optCmp_le_trans os)

theorem stanzaLines_reparseI (i : Interface) :
    stanzaLines (reparseI i) = stanzaLines i := by
  obtain ⟨nm, au, al, fa, me, op, mp⟩ := i
  show stanzaLines ⟨nm, au, al, fa, me, stableSort optCmp op, mp⟩ =
    stanzaLines ⟨nm, au, al, fa, me, op, mp⟩
  unfold stanzaLines
  dsimp only
  rw [sortOpts_idem op]
  rw [show ifaceHeader ⟨nm, au, al, fa, me, stableSort optCmp op, mp⟩ =
    ifaceHeader ⟨nm, au, al, fa, me, op, mp⟩ from rfl]

theorem ifaceCmp_reparseI (a b : Interface) :
    ifaceCmp (reparseI a) (reparseI b) = ifaceCmp a b := rfl

theorem sortedIfaces_reparse (ni : NetworkInterfaces) :
    sortedIfaces (NetworkInterfaces.ofParse
      ⟨reparseDir (sortedIfaces ni), ni.comments, ni.sources⟩ none none) =
      (sortedIfaces ni).map reparseI := by
  show stableSort ifaceCmp
    ((reparseDir (sortedIfaces ni)).map Prod.snd) = _
  rw [show (reparseDir (sortedIfaces ni)).map Prod.snd =
      (sortedIfaces ni).map reparseI from by
    unfold reparseDir
    rw [List.map_map]
    rfl]
  apply stableSort_of_sorted
  have hsorted : (sortedIfaces ni).Pairwise (cmpLe ifaceCmp) :=
    stableSort_sorted ifaceCmp
      (fun x y => natural_swap x.name y.name)
      (fun x y z => natural_le_trans x.name y.name z.name)
      (ni.interfaces.map Prod.snd)
  refine List.Pairwise.map reparseI ?_ hsorted
  intro a b hab
  show ifaceCmp (reparseI a) (reparseI b) ≠ .gt
  rw [ifaceCmp_reparseI]
  exact hab

theorem reparse_render (ni : NetworkInterfaces) :
    (NetworkInterfaces.ofParse
      ⟨reparseDir (sortedIfaces ni), ni.comments, ni.sources⟩
      none none).render = ni.render := by
  unfold NetworkInterfaces.render allLines
  rw [sortedIfaces_reparse]
  rw [show (NetworkInterfaces.ofParse
      ⟨reparseDir (sortedIfaces ni), ni.comments, ni.sources⟩
      none none).comments = ni.comments from rfl]
  rw [show (NetworkInterfaces.ofParse
      ⟨reparseDir (sortedIfaces ni), ni.comments, ni.sources⟩
      none none).sources = ni.sources from rfl]
  rw [List.map_map]
  rw [List.map_congr_left (fun j _ => ?_)]
  show ([] : Str) :: stanzaLines (reparseI j) = [] :: stanzaLines j
  rw [stanzaLines_reparseI]

theorem optRendered_char (o : Str × Str) (ho : WFOpt o) (c : Char)
    (hc : c ∈ optRendered o) (hw : isWs c = true) : c = ' ' := by
  obtain ⟨⟨hk0, hkw⟩, _, _, _, _, _, _, hnv⟩ := ho
  unfold optRendered at hc
  rcases List.mem_append.mp hc with h1 | h2
  · rcases List.mem_append.mp h1 with h3 | h4
    · exact (by decide : ∀ d ∈ ("    ".data : Str), d = ' ') c h3
    · exact absurd (hkw c h4) (by simp [hw])
  · rcases List.mem_cons.mp h2 with h3 | h4
    · exact h3
    · have h5 : c ∈ joinSp (splitWs o.2) := by
        unfold NormalValue at hnv
        rw [hnv]
        exact h4
      rcases mem_joinSp _ c h5 with h6 | ⟨u, hu, hcu⟩
      · exact h6
      · exact absurd ((splitWs_tokens o.2 u hu).2 c hcu) (by simp [hw])

theorem optRendered_ok (o : Str × Str) (ho : WFOpt o) :
    '\n' ∉ optRendered o ∧ (optRendered o).getLast? ≠ some '\r' := by
  constructor
  · intro hmem
    exact absurd (optRendered_char o ho '\n' hmem (by decide)) (by decide)
  · intro hcon
    exact absurd (optRendered_char o ho '\r'
      (List.mem_of_mem_getLast? hcon) (by decide)) (by decide)

theorem stanzaLines_ok (i : Interface) (hwf : WFIface i) :
    ∀ l ∈ stanzaLines i, '\n' ∉ l ∧ l.getLast? ≠ some '\r' := by
  obtain ⟨hname, hallow, hmrt, hfmrt, hopts, hmap⟩ := hwf
  obtain ⟨nm, au, al, fa, me, op, mp⟩ := i
  have hmap' : mp = none := hmap
  subst hmap'
  intro l hl
  have hsl : stanzaLines ⟨nm, au, al, fa, me, op, none⟩ =
      (if au then [autoLine nm] else []) ++
      (al.map (fun t => allowLine t nm) ++
       (ifaceHeader ⟨nm, au, al, fa, me, op, none⟩ ::
        (stableSort optCmp op).map optRendered)) := by
    show ((((if au then [autoLine nm] else []) ++
        al.map (fun t => allowLine t nm)) ++ []) ++
        [ifaceHeader ⟨nm, au, al, fa, me, op, none⟩]) ++
        (stableSort optCmp op).map optRendered = _
    rw [List.append_nil, List.append_assoc, List.append_assoc,
      List.singleton_append]
  rw [hsl] at hl
  rcases List.mem_append.mp hl with hA | h1
  · cases au with
    | false => simp at hA
    | true =>
      rw [if_pos rfl] at hA
      rcases List.mem_singleton.mp hA with rfl
      refine line_ok ["auto".data, nm] ?_ (by simp)
      intro t ht
      rcases List.mem_cons.mp ht with h2 | h3
      · subst h2; exact (by decide : IsToken "auto".data)
      · rcases List.mem_cons.mp h3 with h4 | h5
        · subst h4; exact hname
        · simp at h5
  · rcases List.mem_append.mp h1 with hB | h2
    · obtain ⟨t, ht, rfl⟩ := List.mem_map.mp hB
      refine line_ok [("allow-".data ++ t), nm] ?_ (by simp)
      intro u hu
      rcases List.mem_cons.mp hu with h3 | h4
      · subst h3
        refine ⟨by simp, ?_⟩
        intro c hc
        rcases List.mem_append.mp hc with h5 | h6
        · exact (by decide : ∀ d ∈ ("allow-".data : Str), isWs d = false) c h5
        · exact hallow t ht c h6
      · rcases List.mem_cons.mp h4 with h5 | h6
        · subst h5; exact hname
        · simp at h6
    · rcases List.mem_cons.mp h2 with rfl | hO
      · refine line_ok ("iface".data :: nm ::
          headerArgs ⟨nm, au, al, fa, me, op, none⟩) ?_ (by simp)
        intro u hu
        rcases List.mem_cons.mp hu with h3 | h4
        · subst h3; exact (by decide : IsToken "iface".data)
        · rcases List.mem_cons.mp h4 with h5 | h6
          · subst h5; exact hname
          · exact headerArgs_tokens _ hmrt u h6
      · obtain ⟨o, ho, rfl⟩ := List.mem_map.mp hO
        exact optRendered_ok o (hopts o ((stableSort_perm _ _).mem_iff.mp ho))

theorem allLines_ok (ni : NetworkInterfaces) (hwf : WFDoc ni) :
    ∀ l ∈ allLines ni, '\n' ∉ l ∧ l.getLast? ≠ some '\r' := by
  obtain ⟨hif, hnd, hcom, hsrc⟩ := hwf
  intro l hl
  unfold allLines at hl
  rcases List.mem_append.mp hl with h1 | hbl
  · rcases List.mem_append.mp h1 with hc | hs
    · refine ⟨(hcom l hc).2.2, ?_⟩
      intro hcon
      exact absurd (trim_last_not_ws l '\r'
        (by rw [(hcom l hc).2.1]; exact hcon)) (by decide)
    · refine ⟨(hsrc l hs).2.2, ?_⟩
      intro hcon
      exact absurd (trim_last_not_ws l '\r'
        (by rw [(hsrc l hs).2.1]; exact hcon)) (by decide)
  · obtain ⟨L, hLmem, hlL⟩ := List.mem_flatten.mp hbl
    obtain ⟨i, hi, rfl⟩ := List.mem_map.mp hLmem
    rcases List.mem_cons.mp hlL with rfl | hstan
    · exact ⟨by simp, by simp⟩
    · have hi2 : i ∈ ni.interfaces.map Prod.snd :=
        (stableSort_perm _ _).mem_iff.mp hi
      obtain ⟨e, he, hei⟩ := List.mem_map.mp hi2
      refine stanzaLines_ok i ?_ l hstan
      rw [← hei]
      exact (hif e he).2

theorem sorted_map_reparse_sorted (ni : NetworkInterfaces) :
    ((sortedIfaces ni).map reparseI).Pairwise (cmpLe ifaceCmp) := by
  have hsorted : (sortedIfaces ni).Pairwise (cmpLe ifaceCmp) :=
    stableSort_sorted ifaceCmp
      (fun x y => natural_swap x.name y.name)
      (fun x y z => natural_le_trans x.name y.name z.name)
      (ni.interfaces.map Prod.snd)
  refine List.Pairwise.map reparseI ?_ hsorted
  intro a b hab
  show ifaceCmp (reparseI a) (reparseI b) ≠ .gt
  rw [ifaceCmp_reparseI]
  exact hab

theorem reparseDir_snd (L : List Interface) :
    (reparseDir L).map Prod.snd = L.map reparseI := by
  unfold reparseDir
  rw [List.map_map]
  rfl

set_option maxHeartbeats 1000000 in
/-- Rendering a document whose directory holds the reparsed entries in
ANY iteration order (any permutation of the parse result) reproduces the
original rendering, provided no two distinct interfaces of the original
document carry natural-equal names. -/
theorem render_perm_reparse (ni : NetworkInterfaces) (d : Dir)
    (hperm : d.Perm (reparseDir (sortedIfaces ni)))
    (hnd : NatDistinct ni.interfaces) :
    (⟨d, none, none, ni.comments, ni.sources⟩ : NetworkInterfaces).render =
      ni.render := by
  unfold NetworkInterfaces.render allLines
  have hs : sortedIfaces
      (⟨d, none, none, ni.comments, ni.sources⟩ : NetworkInterfaces) =
      (sortedIfaces ni).map reparseI := by
    unfold sortedIfaces
    have hmem : ∀ x ∈ stableSort ifaceCmp
        ((⟨d, none, none, ni.comments, ni.sources⟩ :
          NetworkInterfaces).interfaces.map Prod.snd),
        x ∈ (sortedIfaces ni).map reparseI := by
      intro x hx
      have h1 : x ∈ d.map Prod.snd := (stableSort_perm _ _).mem_iff.mp hx
      have h2 : x ∈ (reparseDir (sortedIfaces ni)).map Prod.snd :=
        (hperm.map Prod.snd).mem_iff.mp h1
      rw [reparseDir_snd] at h2
      exact h2
    refine sorted_unique ifaceCmp (fun x y => natural_swap x.name y.name) _ _
      ?_ ?_ (sorted_map_reparse_sorted ni) ?_
    · refine (stableSort_perm _ _).trans ?_
      rw [← reparseDir_snd]
      exact hperm.map Prod.snd
    · exact stableSort_sorted ifaceCmp
        (fun x y => natural_swap x.name y.name)
        (fun x y z => natural_le_trans x.name y.name z.name) _
    · intro x hx y hy hxy
      obtain ⟨i, hi, rfl⟩ := List.mem_map.mp (hmem x hx)
      obtain ⟨j, hj, rfl⟩ := List.mem_map.mp (hmem y hy)
      have hij : i = j :=
        hnd i ((stableSort_perm _ _).mem_iff.mp hi)
          j ((stableSort_perm _ _).mem_iff.mp hj) hxy
      rw [hij]
  rw [hs]
  rw [show (⟨d, none, none, ni.comments, ni.sources⟩ :
      NetworkInterfaces).comments = ni.comments from rfl]
  rw [show (⟨d, none, none, ni.comments, ni.sources⟩ :
      NetworkInterfaces).sources = ni.sources from rfl]
  rw [List.map_map]
  rw [List.map_congr_left (fun j _ => ?_)]
  show ([] : Str) :: stanzaLines (reparseI j) = [] :: stanzaLines j
  rw [stanzaLines_reparseI]

/-- C4 counterexample: the canonical text holding stanzas for the
distinct natural-equal names `swp1` and `swp01` parses to two entries;
that the subsequent serialization reproduces the text depends on the
directory's iteration order — the same parsed contents iterated in the
other order (an equally possible `HashMap` iteration order) render a
different text, because the stable display sort keeps natural-equal
names in iteration order. -/
theorem C4_cex :
    Canonical cexDocC4.render ∧
    Parser.parse cexDocC4.render =
      .ok ⟨[("swp1".data, newIface "swp1".data),
            ("swp01".data, newIface "swp01".data)], [], []⟩ ∧
    [("swp1".data, newIface "swp1".data),
     ("swp01".data, newIface "swp01".data)].Perm
      [("swp01".data, newIface "swp01".data),
       ("swp1".data, newIface "swp1".data)] ∧
    (NetworkInterfaces.ofParse
      ⟨[("swp1".data, newIface "swp1".data),
        ("swp01".data, newIface "swp01".data)], [], []⟩ none none).render =
      cexDocC4.render ∧
    (NetworkInterfaces.ofParse
      ⟨[("swp01".data, newIface "swp01".data),
        ("swp1".data, newIface "swp1".data)], [], []⟩ none none).render ≠
      cexDocC4.render :=
  ⟨⟨cexDocC4, by decide, rfl⟩, rfl, List.Perm.swap _ _ _, rfl, by decide⟩

set_option maxHeartbeats 2000000 in
/-- C4 (amended): for a canonical text — the rendering of a well-formed
document — `Parser::parse` succeeds; and when no two distinct interfaces
of that document carry natural-equal names, re-serializing the parse
result reproduces the text exactly, for EVERY iteration order of the
parsed directory (the `HashMap` iteration order is arbitrary, so the
conclusion quantifies over all permutations).  Without the proviso the
reproduced stanza order depends on the iteration order, see the
counterexample. -/
theorem C4_roundtrip_amended (text : Str)
    (h : ∃ ni : NetworkInterfaces,
      WFDoc ni ∧ NatDistinct ni.interfaces ∧ ni.render = text) :
    ∃ r : ParseOk, Parser.parse text = .ok r ∧
      ∀ d : Dir, d.Perm r.interfaces →
        (NetworkInterfaces.ofParse ⟨d, r.comments, r.sources⟩
          none none).render = text := by
  obtain ⟨ni, hwf, hnatd, hrend⟩ := h
  subst hrend
  have hok := allLines_ok ni hwf
  obtain ⟨hif, hnd, hcom, hsrc⟩ := hwf
  refine ⟨⟨reparseDir (sortedIfaces ni), ni.comments, ni.sources⟩, ?_, ?_⟩
  · show Parser.parse (unlinesN (allLines ni)) = _
    rw [parse_unlinesN _ hok]
    have hC : run (withNums 0 ni.comments) initState =
        .ok ⟨[], none, ni.comments, []⟩ :=
      run_comments 0 ni.comments
        (fun c hc => ⟨(hcom c hc).1, (hcom c hc).2.1⟩) [] []
    have hS : run (withNums (0 + ni.comments.length) ni.sources)
        (⟨[], none, ni.comments, []⟩ : PState) =
        .ok ⟨[], none, ni.comments, ni.sources⟩ :=
      run_sources (0 + ni.comments.length) ni.sources
        (fun x hx => ⟨(hsrc x hx).1, (hsrc x hx).2.1⟩)
        ⟨[], none, ni.comments, []⟩
    have hmemif : ∀ i ∈ sortedIfaces ni, WFIface i := by
      intro i hi
      obtain ⟨e, he, hei⟩ :=
        List.mem_map.mp ((stableSort_perm _ _).mem_iff.mp hi)
      rw [← hei]
      exact (hif e he).2
    have hndall : ((sortedIfaces ni).map Interface.name).Nodup := by
      have hp1 : ((sortedIfaces ni).map Interface.name).Perm
          ((ni.interfaces.map Prod.snd).map Interface.name) :=
        (stableSort_perm _ _).map Interface.name
      have he1 : (ni.interfaces.map Prod.snd).map Interface.name =
          ni.interfaces.map Prod.fst := by
        rw [List.map_map]
        exact List.map_congr_left (fun e he => ((hif e he).1).symm)
      rw [he1] at hp1
      exact hp1.nodup_iff.mpr hnd
    obtain ⟨st', hrun, hfd, hcm, hsr⟩ := run_blocks
      (0 + ni.comments.length + ni.sources.length) (sortedIfaces ni)
      ⟨[], none, ni.comments, ni.sources⟩
      hmemif (fun i _ => rfl) hndall
    have hrunAll : run (withNums 0 (allLines ni)) initState = .ok st' := by
      unfold allLines
      rw [withNums_append, withNums_append]
      have hCS : run (withNums 0 ni.comments ++
          withNums (0 + ni.comments.length) ni.sources) initState =
          .ok ⟨[], none, ni.comments, ni.sources⟩ := by
        rw [run_append_ok _ _ _ _ hC]
        exact hS
      rw [run_append_ok _ _ _ _ hCS]
      rw [show (0 + ni.comments.length + ni.sources.length) =
        (0 + (ni.comments ++ ni.sources).length) from by
        simp [List.length_append]] at hrun
      exact hrun
    rw [hrunAll]
    show Except.ok (⟨flushDir st', st'.comments, st'.sources⟩ : ParseOk) = _
    rw [hfd, hcm, hsr]
    rfl
  · intro d hperm
    exact render_perm_reparse ni d hperm hnatd

/-- Witness for the amended C4 at a concrete canonical document (one
`eth0` stanza with a comment and a source line): the parse succeeds and
every iteration order of the parsed directory renders the text back. -/
theorem C4_roundtrip_amended_w :
    ∃ r : ParseOk, Parser.parse canonDocC4.render = .ok r ∧
      ∀ d : Dir, d.Perm r.interfaces →
        (NetworkInterfaces.ofParse ⟨d, r.comments, r.sources⟩
          none none).render = canonDocC4.render :=
  C4_roundtrip_amended canonDocC4.render
    ⟨canonDocC4, by decide, by decide, rfl⟩
